import Mathlib

/-!
# Verification of the `cuco::dynamic_map` growth-and-federation layer

A shallow embedding of the repository's GPU-resident growable hash map
(`include/cuco/dynamic_map.cuh`), the unique-key branch of the key
generation utility (`include/cuco/utility/key_generator.cuh`) and the
shared-memory size computation of the `priority_queue`.

The repository ships only the declarations and documented contracts of
`dynamic_map` (the `.inl` implementation is not part of the sources at
hand), so the orchestration layer is modelled from the specification:
submaps are association lists with a fixed capacity and a tombstone
counter, device streams are elided (bulk operations are functions on the
whole container state), and the `float` load factor is modelled as the
exact fraction `mlf_num_ / mlf_den_`.  Keys and mapped values are
modelled as `Int` (the container requires arithmetic key types).
-/

namespace cuco

/-- Modelled from the spec: one fixed-capacity submap (the `static_map`
primitive, which the spec treats as an external collaborator).  `entries`
holds the live key/value pairs, `tombstones` counts slots consumed by
erased-key sentinels; both consume capacity and tombstone slots are never
reclaimed. -/
structure static_map where
  capacity : Nat
  entries : List (Int × Int)
  tombstones : Nat
  deriving Repr, DecidableEq

namespace static_map

/-- Lookup of a key among the live entries of one submap. -/
def find_entry : List (Int × Int) → Int → Option Int
  | [], _ => none
  | e :: es, k => if e.1 = k then some e.2 else find_entry es k

/-- Whether one submap holds a live entry for `k`. -/
def sm_contains (s : static_map) (k : Int) : Bool :=
  (find_entry s.entries k).isSome

/-- Number of slots of a submap already consumed (live entries plus
tombstones). -/
def used (s : static_map) : Nat :=
  s.entries.length + s.tombstones

/-- Free slots remaining in a submap. -/
def free (s : static_map) : Nat :=
  s.capacity - s.used

/-- Modelled from the spec: inserting a single pair into one submap.  The
primitive enforces key uniqueness within this submap only: a pair whose
key is already live here is rejected; otherwise the pair takes a free
slot if one remains.  Returns the updated submap and whether the insert
succeeded. -/
def sm_insert (s : static_map) (p : Int × Int) : static_map × Bool :=
  if s.sm_contains p.1 then (s, false)
  else if s.used < s.capacity then
    ({ s with entries := p :: s.entries }, true)
  else (s, false)

/-- Modelled from the spec: bulk insert of a batch into one submap,
returning the submap and the number of successful insertions (the
per-submap success count). -/
def sm_insert_batch : static_map → List (Int × Int) → static_map × Nat
  | s, [] => (s, 0)
  | s, p :: b =>
    let r := sm_insert s p
    let rest := sm_insert_batch r.1 b
    (rest.1, (if r.2 then 1 else 0) + rest.2)

/-- Modelled from the spec: erasing one key from one submap.  Every live
entry for the key is replaced by a tombstone; the success count is the
number of entries actually removed. -/
def sm_erase_key (s : static_map) (k : Int) : static_map × Nat :=
  let removed := s.entries.countP (fun e => e.1 = k)
  ({ s with
      entries := s.entries.filter (fun e => ¬ e.1 = k)
      tombstones := s.tombstones + removed }, removed)

/-- Modelled from the spec: bulk erase of a batch of keys from one
submap, accumulating the per-submap success counter. -/
def sm_erase_batch : static_map → List Int → static_map × Nat
  | s, [] => (s, 0)
  | s, k :: ks =>
    let r := sm_erase_key s k
    let rest := sm_erase_batch r.1 ks
    (rest.1, r.2 + rest.2)

end static_map

/-- Modelled from the spec: the state of a `cuco::dynamic_map`.  Device
view arrays are not modelled separately: the spec's View Synchronizer
keeps them equal to the submap pool before every kernel launch, so the
pool itself stands for both.  The `float` load factor
threshold is modelled as the exact fraction `mlf_num_ / mlf_den_`;
`growth_factor_` is the multiplicative capacity growth factor. -/
structure dynamic_map where
  empty_key_sentinel_ : Int
  empty_value_sentinel_ : Int
  erased_key_sentinel_ : Option Int
  size_ : Nat
  capacity_ : Nat
  mlf_num_ : Nat
  mlf_den_ : Nat
  min_insert_size_ : Nat
  growth_factor_ : Nat
  submaps_ : List static_map
  deriving Repr, DecidableEq

namespace dynamic_map

/-- `get_size`: the logical number of live key/value pairs. -/
def get_size (m : dynamic_map) : Nat := m.size_

/-- `get_capacity`: the sum of all submap capacities. -/
def get_capacity (m : dynamic_map) : Nat := m.capacity_

/-- Modelled from the spec: construction without erase support
(`dynamic_map(initial_capacity, empty_key, empty_value)`).  The load
factor threshold and minimum insert size are fixed internally by the
source constructor; the model exposes them as parameters. -/
def construct (initial_capacity : Nat) (empty_key_sentinel : Int)
    (empty_value_sentinel : Int) (mlfNum mlfDen : Nat) (mis : Nat) : dynamic_map :=
  { empty_key_sentinel_ := empty_key_sentinel
    empty_value_sentinel_ := empty_value_sentinel
    erased_key_sentinel_ := none
    size_ := 0
    capacity_ := initial_capacity
    mlf_num_ := mlfNum
    mlf_den_ := mlfDen
    min_insert_size_ := mis
    growth_factor_ := 2
    submaps_ := [⟨initial_capacity, [], 0⟩] }

/-- Modelled from the spec: construction with erase capability.  Throws
(returns an error) exactly when the erased-key sentinel equals the
empty-key sentinel. -/
def construct_erased (initial_capacity : Nat) (empty_key_sentinel : Int)
    (empty_value_sentinel : Int) (erased_key_sentinel : Int) (mlfNum mlfDen : Nat)
    (mis : Nat) : Except String dynamic_map :=
  if erased_key_sentinel = empty_key_sentinel then
    Except.error "The empty key sentinel and erased key sentinel cannot be the same value."
  else
    Except.ok
      { construct initial_capacity empty_key_sentinel empty_value_sentinel mlfNum mlfDen mis with
        erased_key_sentinel_ := some erased_key_sentinel }

/-- The newest (most recently appended) submap; junk value on the empty
pool, which no constructed map has. -/
def newest (m : dynamic_map) : static_map :=
  m.submaps_.getLast?.getD ⟨0, [], 0⟩

/-- Free slots of the newest submap. -/
def newest_free (m : dynamic_map) : Nat := m.newest.free

/-- Modelled from the spec: capacity of the next submap the Growth
Controller would append: `max(current_capacity * (growth_factor - 1),
n_remaining)`. -/
def next_submap_capacity (m : dynamic_map) (n : Nat) : Nat :=
  max (m.capacity_ * (m.growth_factor_ - 1)) n

/-- Modelled from the spec: append one freshly constructed submap (same
sentinel configuration as the parent) to the pool and mirror its views. -/
def append_submap (m : dynamic_map) (n : Nat) : dynamic_map :=
  { m with
    capacity_ := m.capacity_ + m.next_submap_capacity n
    submaps_ := m.submaps_ ++ [⟨m.next_submap_capacity n, [], 0⟩] }

/-- Whether the projected occupancy after accepting `n` more pairs
exceeds the load-factor threshold: `(size + n) / capacity >
mlf_num / mlf_den`, stated by cross-multiplication so the condition is
computed in exact integer arithmetic. -/
def occupancy_exceeded (m : dynamic_map) (n : Nat) : Prop :=
  m.mlf_num_ * m.capacity_ < (m.size_ + n) * m.mlf_den_

instance (m : dynamic_map) (n : Nat) : Decidable (occupancy_exceeded m n) := by
  unfold occupancy_exceeded; infer_instance

/-- The Growth Controller's loop condition: keep appending while the
projected occupancy still exceeds the threshold (and growth is possible
at all: a positive load factor and a non-degenerate submap size). -/
def grow_cond (m : dynamic_map) (n : Nat) : Prop :=
  0 < m.mlf_num_ ∧ occupancy_exceeded m n ∧ 0 < m.next_submap_capacity n

instance (m : dynamic_map) (n : Nat) : Decidable (grow_cond m n) := by
  unfold grow_cond; infer_instance

/-- Modelled from the spec: the Growth Controller's append loop,
structured on an explicit iteration bound (`fuel`) that the caller
chooses large enough for the loop to run to its exit condition; the
capacity strictly grows every iteration, so the bound
`(size + n) * mlf_den / mlf_num + 1` always suffices. -/
def grow_loop (n : Nat) : Nat → dynamic_map → dynamic_map
  | 0, m => m
  | fuel + 1, m =>
    if grow_cond m n then grow_loop n fuel (m.append_submap n)
    else m

/-- Iterations that certainly reach the growth loop's exit condition. -/
def grow_fuel (m : dynamic_map) (n : Nat) : Nat :=
  (m.size_ + n) * m.mlf_den_ / m.mlf_num_ + 1

/-- Whether a request to accept `n` more pairs triggers growth: the
projected occupancy exceeds the threshold, or the newest submap retains
fewer free slots than `min_insert_size_`, or fewer than the batch needs. -/
def needs_growth (m : dynamic_map) (n : Nat) : Prop :=
  occupancy_exceeded m n ∨ m.newest_free < m.min_insert_size_ ∨ m.newest_free < n

instance (m : dynamic_map) (n : Nat) : Decidable (needs_growth m n) := by
  unfold needs_growth; infer_instance

/-- Modelled from the spec: `reserve` — ensure that `n` additional
key/value pairs can be accepted without further growth.  If growth is
triggered, submaps are appended until the projected post-insert occupancy
satisfies `max_load_factor`. -/
def reserve (m : dynamic_map) (n : Nat) : dynamic_map :=
  if needs_growth m n then grow_loop n (grow_fuel m n) (m.append_submap n)
  else m

/-- Replace the newest submap of the pool. -/
def set_newest (m : dynamic_map) (s : static_map) : dynamic_map :=
  { m with submaps_ := m.submaps_.dropLast ++ [s] }

/-- Modelled from the spec: bulk `insert`.  The Growth Controller first
guarantees capacity for the batch, then the batch is inserted into the
newest submap through its mutable view; the primitive rejects keys that
are already live in that submap (uniqueness is enforced within the
target submap only, so a key living in an older submap is accepted
again).  The logical size grows by the number of successful insertions. -/
def insert (m : dynamic_map) (b : List (Int × Int)) : dynamic_map :=
  let m' := m.reserve b.length
  let r := m'.newest.sm_insert_batch b
  { m'.set_newest r.1 with size_ := m'.size_ + r.2 }

/-- Modelled from the spec: the Bulk Query Orchestrator's per-key
resolution — probe submaps oldest to newest, first positive match wins. -/
def pool_find : List static_map → Int → Option Int
  | [], _ => none
  | s :: ss, k =>
    match static_map.find_entry s.entries k with
    | some v => some v
    | none => pool_find ss k

/-- Modelled from the spec: `find` for one key — the associated value if
the key is present in any submap, else the empty-value sentinel. -/
def find_one (m : dynamic_map) (k : Int) : Int :=
  (pool_find m.submaps_ k).getD m.empty_value_sentinel_

/-- Modelled from the spec: bulk `find` — writes, for each input key in
order, the associated value or the empty-value sentinel. -/
def find (m : dynamic_map) (ks : List Int) : List Int :=
  ks.map m.find_one

/-- Modelled from the spec: `contains` for one key — whether the key is
present in any submap. -/
def contains_one (m : dynamic_map) (k : Int) : Bool :=
  (pool_find m.submaps_ k).isSome

/-- Modelled from the spec: bulk `contains` — one boolean per input key. -/
def contains (m : dynamic_map) (ks : List Int) : List Bool :=
  ks.map m.contains_one

/-- Modelled from the spec: the Erase Coordinator's successful path —
every submap erases the batch's keys through its mutable view, each
submap's zeroed success counter records how many keys it removed, and
the logical size drops by the summed counters. -/
def erase_impl (m : dynamic_map) (ks : List Int) : dynamic_map :=
  let results := m.submaps_.map (fun s => s.sm_erase_batch ks)
  { m with
    submaps_ := results.map Prod.fst
    size_ := m.size_ - (results.map Prod.snd).sum }

/-- Modelled from the spec: bulk `erase`.  Mirroring the source's
throw-before-mutate behavior, the result pairs the (possibly updated)
container with an optional error: a configuration error is raised, and
the container left untouched, exactly when no erased-key sentinel was
configured at construction. -/
def erase (m : dynamic_map) (ks : List Int) : dynamic_map × Option String :=
  match m.erased_key_sentinel_ with
  | none => (m, some "You must provide a unique erased key sentinel value at map construction.")
  | some _ => (m.erase_impl ks, none)

/-- A bulk mutating operation issued to the container (phases are
separated, so a trace is a sequence of whole batches). -/
inductive MapOp where
  | ins (b : List (Int × Int))
  | ers (ks : List Int)
  deriving Repr, DecidableEq

/-- Apply one bulk operation; a failed erase leaves the container in its
prior state. -/
def apply_op (m : dynamic_map) : MapOp → dynamic_map
  | .ins b => m.insert b
  | .ers ks => (m.erase ks).1

/-- Run a sequence of bulk operations. -/
def run_ops (m : dynamic_map) (ops : List MapOp) : dynamic_map :=
  ops.foldl apply_op m

/-- In how many submaps a key is simultaneously live. -/
def copies (m : dynamic_map) (k : Int) : Nat :=
  (m.submaps_.filter (fun s => s.sm_contains k)).length

/-- All live keys across the pool, oldest submap first. -/
def all_keys (m : dynamic_map) : List Int :=
  (m.submaps_.map (fun s => s.entries.map Prod.fst)).flatten

/-- Whether, after a sequence of bulk operations, a key has been inserted
by some batch and not subsequently erased (the reference predicate the
spec's `contains` contract is stated against). -/
def key_live (k : Int) (ops : List MapOp) : Bool :=
  ops.foldl (fun live op =>
    match op with
    | .ins b => live || b.any (fun p => p.1 == k)
    | .ers ks => live && !(ks.any (fun j => j == k))) false

/-- The caller discipline documented by the spec for `insert`: every
insert batch carries pairwise-distinct keys, none of which is already
live anywhere in the pool (cross-submap duplicate insertion "must be
avoided by the caller"). -/
def disciplined : dynamic_map → List MapOp → Bool
  | _, [] => true
  | m, .ins b :: ops =>
    decide (b.map Prod.fst).Nodup
      && (b.map Prod.fst).all (fun k => !(m.contains_one k))
      && disciplined (m.apply_op (.ins b)) ops
  | m, .ers ks :: ops => disciplined (m.apply_op (.ers ks)) ops

/-- Total number of key/value pairs submitted by the insert batches of a
trace. -/
def inserted_total : List MapOp → Nat
  | [] => 0
  | .ins b :: ops => b.length + inserted_total ops
  | .ers _ :: ops => inserted_total ops

/-- Number of distinct keys of one erase batch that are live in the map
the batch is applied to (the keys the batch successfully erases, each
counted once). -/
def distinct_erased (m : dynamic_map) (ks : List Int) : Nat :=
  (ks.toFinset.filter (fun k => m.contains_one k = true)).card

/-- Total number of distinct keys successfully erased along a trace,
counted per erase batch against the container state it runs on. -/
def erased_total : dynamic_map → List MapOp → Nat
  | _, [] => 0
  | m, .ins b :: ops => erased_total (m.apply_op (.ins b)) ops
  | m, .ers ks :: ops => distinct_erased m ks + erased_total (m.apply_op (.ers ks)) ops

end dynamic_map

namespace utility

/-- `thrust::sequence(out_begin, out_end, 0)` on a range of length `n`:
the keys `0, 1, ..., n - 1` in order (the external thrust primitive's
documented effect). -/
def thrust_sequence (n : Nat) : List Nat :=
  List.range n

/-- One selection pass of the shuffle model: repeatedly pick the element
at an RNG-chosen index and remove it.  `fuel` is the number of elements
still to emit (the caller passes the list length). -/
def shuffle_pick (rng : Nat → Nat) : Nat → Nat → List Nat → List Nat
  | 0, _, _ => []
  | _ + 1, _, [] => []
  | fuel + 1, step, x :: xs =>
    let l := x :: xs
    let i := rng step % l.length
    l.getD i 0 :: shuffle_pick rng fuel (step + 1) (l.eraseIdx i)

/-- Model of the external `thrust::shuffle` primitive: reorder the range
by a selection shuffle driven by an arbitrary random-number stream
(thrust guarantees the output is a reordering of the input; the concrete
draw sequence is abstracted as `rng`). -/
def thrust_shuffle (rng : Nat → Nat) (l : List Nat) : List Nat :=
  shuffle_pick rng l.length 0 l

/-- `key_generator::generate` specialised to the `distribution::unique`
tag (key_generator.cuh, lines 272-274): `thrust::sequence` over the
output range followed by `thrust::shuffle`. -/
def generate_unique (rng : Nat → Nat) (n : Nat) : List Nat :=
  thrust_shuffle rng (thrust_sequence n)

end utility

/-- `sizeof(int)` on the targets the source supports (ILP32/LP64). -/
def sizeof_int : Nat := 4

/-- The host-side `priority_queue` state that `get_shmem_size` and
`get_mutable_device_view` read (device pointers carry no size
information and are omitted). -/
structure priority_queue where
  node_size_ : Nat
  lowest_level_start_ : Int
  node_capacity_ : Int
  deriving Repr, DecidableEq

/-- The trivially-copyable device view of a `priority_queue`
(`device_mutable_view`), holding its own copy of the node size. -/
structure device_mutable_view where
  node_size_ : Nat
  lowest_level_start_ : Int
  node_capacity_ : Int
  deriving Repr, DecidableEq

namespace priority_queue

/-- Host-side `priority_queue::get_shmem_size(block_size)`:
`intersection_bytes + 2 * node_bytes` with
`intersection_bytes = 2 * (block_size + 1) * sizeof(int)` and
`node_bytes = node_size_ * sizeof(Pair<Key, Value>)`.  The pair size is
a parameter (`sizeof_pair`), as it depends on the instantiated types. -/
def get_shmem_size (sizeof_pair : Nat) (q : priority_queue) (block_size : Nat) : Nat :=
  let intersection_bytes := 2 * (block_size + 1) * sizeof_int
  let node_bytes := q.node_size_ * sizeof_pair
  intersection_bytes + 2 * node_bytes

/-- `priority_queue::get_mutable_device_view()`: builds the device view
from the queue's own fields (in particular its `node_size_`). -/
def get_mutable_device_view (q : priority_queue) : device_mutable_view :=
  ⟨q.node_size_, q.lowest_level_start_, q.node_capacity_⟩

end priority_queue

namespace device_mutable_view

/-- Device-side `device_mutable_view::get_shmem_size(block_size)`: the
same byte count computed from the view's copy of the node size. -/
def get_shmem_size (sizeof_pair : Nat) (v : device_mutable_view) (block_size : Nat) : Nat :=
  let intersection_bytes := 2 * (block_size + 1) * sizeof_int
  let node_bytes := v.node_size_ * sizeof_pair
  intersection_bytes + 2 * node_bytes

end device_mutable_view

end cuco

/-! ## Submap-level lemmas -/

namespace cuco

namespace static_map

theorem find_entry_isSome_iff {es : List (Int × Int)} {k : Int} :
    (find_entry es k).isSome = true ↔ k ∈ es.map Prod.fst := by
  induction es with
  | nil => simp [find_entry]
  | cons e es ih =>
    simp only [find_entry, List.map_cons, List.mem_cons]
    by_cases h : e.1 = k
    · simp [h]
    · rw [if_neg h, ih]
      constructor
      · exact fun hm => Or.inr hm
      · intro hm
        rcases hm with h' | hm
        · exact absurd h'.symm h
        · exact hm

theorem find_entry_eq_none_iff {es : List (Int × Int)} {k : Int} :
    find_entry es k = none ↔ k ∉ es.map Prod.fst := by
  rw [← Option.not_isSome_iff_eq_none]
  exact not_congr find_entry_isSome_iff

theorem sm_contains_iff {s : static_map} {k : Int} :
    s.sm_contains k = true ↔ k ∈ s.entries.map Prod.fst :=
  find_entry_isSome_iff

theorem sm_contains_eq_false_iff {s : static_map} {k : Int} :
    s.sm_contains k = false ↔ k ∉ s.entries.map Prod.fst := by
  rw [← sm_contains_iff]
  simp

theorem sm_insert_fst_cases (s : static_map) (p : Int × Int) :
    (sm_insert s p).1 = s ∨
      (sm_insert s p).1 = { s with entries := p :: s.entries } := by
  unfold sm_insert
  split
  · exact Or.inl rfl
  · split
    · exact Or.inr rfl
    · exact Or.inl rfl

theorem sm_insert_batch_capacity (s : static_map) (b : List (Int × Int)) :
    (sm_insert_batch s b).1.capacity = s.capacity := by
  induction b generalizing s with
  | nil => rfl
  | cons p b ih =>
    show (sm_insert_batch (sm_insert s p).1 b).1.capacity = s.capacity
    rcases sm_insert_fst_cases s p with h | h <;> rw [h, ih]

theorem sm_insert_batch_tombstones (s : static_map) (b : List (Int × Int)) :
    (sm_insert_batch s b).1.tombstones = s.tombstones := by
  induction b generalizing s with
  | nil => rfl
  | cons p b ih =>
    show (sm_insert_batch (sm_insert s p).1 b).1.tombstones = s.tombstones
    rcases sm_insert_fst_cases s p with h | h <;> rw [h, ih]

theorem sm_insert_batch_length (s : static_map) (b : List (Int × Int)) :
    (sm_insert_batch s b).1.entries.length
      = s.entries.length + (sm_insert_batch s b).2 := by
  induction b generalizing s with
  | nil => rfl
  | cons p b ih =>
    show (sm_insert_batch (sm_insert s p).1 b).1.entries.length
      = s.entries.length + ((if (sm_insert s p).2 then 1 else 0) + (sm_insert_batch (sm_insert s p).1 b).2)
    unfold sm_insert
    split
    · rw [ih]; simp
    · split
      · rw [ih]; simp; omega
      · rw [ih]; simp

theorem sm_insert_batch_snd_le (s : static_map) (b : List (Int × Int)) :
    (sm_insert_batch s b).2 ≤ b.length := by
  induction b generalizing s with
  | nil => exact Nat.le_refl 0
  | cons p b ih =>
    show (if (sm_insert s p).2 then 1 else 0) + (sm_insert_batch (sm_insert s p).1 b).2
      ≤ b.length + 1
    have := ih (sm_insert s p).1
    split <;> omega

end static_map

end cuco

namespace cuco

namespace static_map

theorem sm_insert_batch_contains {b : List (Int × Int)} {s : static_map}
    (hfree : b.length ≤ s.free) (k : Int) :
    ((sm_insert_batch s b).1.sm_contains k = true) ↔
      (s.sm_contains k = true ∨ k ∈ b.map Prod.fst) := by
  induction b generalizing s with
  | nil => simp [sm_insert_batch]
  | cons p b ih =>
    show ((sm_insert_batch (sm_insert s p).1 b).1.sm_contains k = true) ↔ _
    by_cases hc : s.sm_contains p.1 = true
    · have h1 : (sm_insert s p).1 = s := by simp [sm_insert, hc]
      rw [h1, ih (s := s) (by simpa using Nat.le_of_succ_le hfree)]
      simp only [List.map_cons, List.mem_cons]
      constructor
      · rintro (h | h)
        · exact Or.inl h
        · exact Or.inr (Or.inr h)
      · rintro (h | h | h)
        · exact Or.inl h
        · subst h; exact Or.inl hc
        · exact Or.inr h
    · have hroom : s.used < s.capacity := by
        have : 0 < s.free := by
          calc 0 < b.length + 1 := Nat.succ_pos _
          _ ≤ s.free := by simpa using hfree
        unfold free at this; omega
      have h1 : (sm_insert s p).1 = { s with entries := p :: s.entries } := by
        simp [sm_insert, hc, hroom]
      have hfree' : b.length ≤ ({ s with entries := p :: s.entries } : static_map).free := by
        simp only [free, used, List.length_cons] at hfree ⊢
        omega
      rw [h1, ih (s := { s with entries := p :: s.entries }) hfree']
      simp only [sm_contains_iff, List.map_cons, List.mem_cons]
      constructor
      · rintro (h | h)
        · rcases h with h | h
          · exact Or.inr (Or.inl h)
          · exact Or.inl h
        · exact Or.inr (Or.inr h)
      · rintro (h | h | h)
        · exact Or.inl (Or.inr h)
        · exact Or.inl (Or.inl h)
        · exact Or.inr h

theorem sm_insert_batch_find_of_not_mem {b : List (Int × Int)} {s : static_map}
    {k : Int} (hk : k ∉ b.map Prod.fst) :
    find_entry (sm_insert_batch s b).1.entries k = find_entry s.entries k := by
  induction b generalizing s with
  | nil => rfl
  | cons p b ih =>
    have hk' : k ∉ b.map Prod.fst := fun h => hk (List.mem_cons_of_mem _ h)
    have hkp : ¬ p.1 = k := by
      intro h; exact hk (by simp [← h])
    show find_entry (sm_insert_batch (sm_insert s p).1 b).1.entries k = _
    rcases sm_insert_fst_cases s p with h1 | h1
    · rw [h1, ih hk']
    · rw [h1, ih hk']
      show find_entry (p :: s.entries) k = find_entry s.entries k
      simp [find_entry, hkp]

theorem sm_contains_false_cons {s : static_map} {q : Int × Int} {k : Int}
    (hks : s.sm_contains k = false) (hkq : ¬ k = q.1) :
    ({ s with entries := q :: s.entries } : static_map).sm_contains k = false := by
  rw [sm_contains_eq_false_iff] at hks ⊢
  simp only [List.map_cons, List.mem_cons]
  push_neg
  exact ⟨hkq, hks⟩

theorem sm_insert_batch_find_fresh {b : List (Int × Int)} {s : static_map}
    (hfree : b.length ≤ s.free) (hnd : (b.map Prod.fst).Nodup)
    (hfresh : ∀ p ∈ b, s.sm_contains p.1 = false) {p : Int × Int} (hp : p ∈ b) :
    find_entry (sm_insert_batch s b).1.entries p.1 = some p.2 := by
  induction b generalizing s with
  | nil => cases hp
  | cons q b ih =>
    have hcq : s.sm_contains q.1 = false := hfresh q (List.mem_cons_self q b)
    have hroom : s.used < s.capacity := by
      have : 0 < s.free := by
        calc 0 < b.length + 1 := Nat.succ_pos _
        _ ≤ s.free := by simpa using hfree
      unfold free at this; omega
    have h1 : (sm_insert s q).1 = { s with entries := q :: s.entries } := by
      simp [sm_insert, hcq, hroom]
    have hfree' : b.length ≤ ({ s with entries := q :: s.entries } : static_map).free := by
      simp only [free, used, List.length_cons] at hfree ⊢
      omega
    show find_entry (sm_insert_batch (sm_insert s q).1 b).1.entries p.1 = some p.2
    rw [h1]
    rcases List.mem_cons.mp hp with hpq | hpb
    · subst hpq
      have hq : p.1 ∉ b.map Prod.fst := (List.nodup_cons.mp hnd).1
      rw [sm_insert_batch_find_of_not_mem hq]
      show find_entry (p :: s.entries) p.1 = some p.2
      simp [find_entry]
    · refine ih hfree' (List.nodup_cons.mp hnd).2 ?_ hpb
      intro r hr
      have hrs : s.sm_contains r.1 = false := hfresh r (List.mem_cons_of_mem _ hr)
      have hrq : ¬ r.1 = q.1 := by
        intro h
        have h1 : r.1 ∈ b.map Prod.fst := List.mem_map_of_mem Prod.fst hr
        rw [h] at h1
        exact (List.nodup_cons.mp hnd).1 h1
      exact sm_contains_false_cons hrs hrq

theorem sm_insert_batch_snd_fresh {b : List (Int × Int)} {s : static_map}
    (hfree : b.length ≤ s.free) (hnd : (b.map Prod.fst).Nodup)
    (hfresh : ∀ p ∈ b, s.sm_contains p.1 = false) :
    (sm_insert_batch s b).2 = b.length := by
  induction b generalizing s with
  | nil => rfl
  | cons q b ih =>
    have hcq : s.sm_contains q.1 = false := hfresh q (List.mem_cons_self q b)
    have hroom : s.used < s.capacity := by
      have : 0 < s.free := by
        calc 0 < b.length + 1 := Nat.succ_pos _
        _ ≤ s.free := by simpa using hfree
      unfold free at this; omega
    have h1 : sm_insert s q = ({ s with entries := q :: s.entries }, true) := by
      simp [sm_insert, hcq, hroom]
    have hfree' : b.length ≤ ({ s with entries := q :: s.entries } : static_map).free := by
      simp only [free, used, List.length_cons] at hfree ⊢
      omega
    show (if (sm_insert s q).2 then 1 else 0) + (sm_insert_batch (sm_insert s q).1 b).2
      = b.length + 1
    rw [h1]
    have hrest : (sm_insert_batch ({ s with entries := q :: s.entries } : static_map) b).2
        = b.length := by
      refine ih hfree' (List.nodup_cons.mp hnd).2 ?_
      intro r hr
      have hrs : s.sm_contains r.1 = false := hfresh r (List.mem_cons_of_mem _ hr)
      have hrq : ¬ r.1 = q.1 := by
        intro h
        have h1 : r.1 ∈ b.map Prod.fst := List.mem_map_of_mem Prod.fst hr
        rw [h] at h1
        exact (List.nodup_cons.mp hnd).1 h1
      exact sm_contains_false_cons hrs hrq
    simp [hrest]
    omega

end static_map

end cuco

namespace cuco

namespace static_map

theorem sm_insert_batch_entries_ext (s : static_map) (b : List (Int × Int)) :
    ∃ nl, (sm_insert_batch s b).1.entries = nl ++ s.entries ∧
      (nl.map Prod.fst).Nodup ∧
      (∀ k ∈ nl.map Prod.fst, k ∈ b.map Prod.fst ∧ s.sm_contains k = false) := by
  induction b generalizing s with
  | nil => exact ⟨[], rfl, List.nodup_nil, by simp⟩
  | cons p b ih =>
    show ∃ nl, (sm_insert_batch (sm_insert s p).1 b).1.entries = nl ++ s.entries ∧ _
    by_cases hc : s.sm_contains p.1 = true
    · have h1 : (sm_insert s p).1 = s := by simp [sm_insert, hc]
      rw [h1]
      obtain ⟨nl, he, hnd, hmem⟩ := ih s
      exact ⟨nl, he, hnd, fun k hk =>
        ⟨List.mem_cons_of_mem _ (hmem k hk).1, (hmem k hk).2⟩⟩
    · by_cases hroom : s.used < s.capacity
      · have h1 : (sm_insert s p).1 = { s with entries := p :: s.entries } := by
          simp [sm_insert, hc, hroom]
        rw [h1]
        obtain ⟨nl, he, hnd, hmem⟩ := ih { s with entries := p :: s.entries }
        refine ⟨nl ++ [p], by simpa using he, ?_, ?_⟩
        · rw [List.map_append]
          refine List.Nodup.append hnd (by simp) ?_
          intro k hk hk'
          have hp : k = p.1 := by simpa using hk'
          have := (hmem k hk).2
          rw [sm_contains_eq_false_iff] at this
          exact this (by simp [hp])
        · intro k hk
          rw [List.map_append] at hk
          rcases List.mem_append.mp hk with h | h
          · have h2 := (hmem k h).2
            have h3 : ¬ k = p.1 := by
              intro hkp
              rw [sm_contains_eq_false_iff] at h2
              exact h2 (by simp [hkp])
            constructor
            · exact List.mem_cons_of_mem _ (hmem k h).1
            · rw [sm_contains_eq_false_iff]
              intro hmem'
              rw [sm_contains_eq_false_iff] at h2
              exact h2 (by
                simp only [List.map_cons, List.mem_cons]
                exact Or.inr (by simpa using hmem'))
          · have hp : k = p.1 := by simpa using h
            subst hp
            exact ⟨List.mem_cons_self _ _, eq_false_of_ne_true hc⟩

      · have h1 : (sm_insert s p).1 = s := by simp [sm_insert, hc, hroom]
        rw [h1]
        obtain ⟨nl, he, hnd, hmem⟩ := ih s
        exact ⟨nl, he, hnd, fun k hk =>
          ⟨List.mem_cons_of_mem _ (hmem k hk).1, (hmem k hk).2⟩⟩

theorem find_entry_filter_self (es : List (Int × Int)) (k : Int) :
    find_entry (es.filter (fun e => ¬ e.1 = k)) k = none := by
  rw [find_entry_eq_none_iff]
  intro hmem
  simp only [List.mem_map] at hmem
  obtain ⟨e, he, hek⟩ := hmem
  have := List.of_mem_filter he
  simp [hek] at this

theorem find_entry_cons (e : Int × Int) (es : List (Int × Int)) (k : Int) :
    find_entry (e :: es) k = if e.1 = k then some e.2 else find_entry es k := rfl

theorem find_entry_filter_ne {es : List (Int × Int)} {j k : Int} (h : ¬ j = k) :
    find_entry (es.filter (fun e => ¬ e.1 = k)) j = find_entry es j := by
  induction es with
  | nil => rfl
  | cons e es ih =>
    by_cases hek : e.1 = k
    · have hej : ¬ e.1 = j := by
        intro hh
        exact h (by rw [← hh, hek])
      rw [List.filter_cons_of_neg (by simp [hek]), ih, find_entry_cons, if_neg hej]
    · rw [List.filter_cons_of_pos (by simp [hek]), find_entry_cons, find_entry_cons, ih]

theorem length_filter_ne_add_countP (es : List (Int × Int)) (k : Int) :
    (es.filter (fun e => ¬ e.1 = k)).length + es.countP (fun e => e.1 = k)
      = es.length := by
  induction es with
  | nil => rfl
  | cons e es ih =>
    by_cases h : e.1 = k
    · have hfc : (e :: es).filter (fun e => ¬ e.1 = k)
          = es.filter (fun e => ¬ e.1 = k) :=
        List.filter_cons_of_neg (by simp [h])
      have hcc : (e :: es).countP (fun e => e.1 = k)
          = es.countP (fun e => e.1 = k) + 1 :=
        List.countP_cons_of_pos _ _ (by simp [h])
      rw [hfc, hcc, List.length_cons]
      omega
    · have hfc : (e :: es).filter (fun e => ¬ e.1 = k)
          = e :: es.filter (fun e => ¬ e.1 = k) :=
        List.filter_cons_of_pos (by simp [h])
      have hcc : (e :: es).countP (fun e => e.1 = k)
          = es.countP (fun e => e.1 = k) :=
        List.countP_cons_of_neg _ _ (by simp [h])
      rw [hfc, hcc, List.length_cons, List.length_cons]
      omega

theorem sm_erase_batch_capacity (s : static_map) (ks : List Int) :
    (sm_erase_batch s ks).1.capacity = s.capacity := by
  induction ks generalizing s with
  | nil => rfl
  | cons k ks ih =>
    show (sm_erase_batch (sm_erase_key s k).1 ks).1.capacity = s.capacity
    rw [ih]
    rfl

theorem sm_erase_batch_used (s : static_map) (ks : List Int) :
    (sm_erase_batch s ks).1.used = s.used := by
  induction ks generalizing s with
  | nil => rfl
  | cons k ks ih =>
    show (sm_erase_batch (sm_erase_key s k).1 ks).1.used = s.used
    rw [ih]
    show (s.entries.filter (fun e => ¬ e.1 = k)).length
        + (s.tombstones + s.entries.countP (fun e => e.1 = k)) = s.entries.length + s.tombstones
    have := length_filter_ne_add_countP s.entries k
    omega

theorem sm_erase_batch_find (s : static_map) (ks : List Int) (k : Int) :
    find_entry (sm_erase_batch s ks).1.entries k
      = if k ∈ ks then none else find_entry s.entries k := by
  induction ks generalizing s with
  | nil => simp [sm_erase_batch]
  | cons j ks ih =>
    show find_entry (sm_erase_batch (sm_erase_key s j).1 ks).1.entries k = _
    rw [ih]
    by_cases hks : k ∈ ks
    · simp [hks, List.mem_cons]
    · by_cases hkj : k = j
      · subst hkj
        simp only [hks, if_false, List.mem_cons, true_or, if_true]
        exact find_entry_filter_self s.entries k
      · have : ¬ k ∈ j :: ks := by
          intro hh
          rcases List.mem_cons.mp hh with h | h
          · exact hkj h
          · exact hks h
        simp only [hks, if_false, this, if_false]
        exact find_entry_filter_ne hkj

theorem sm_erase_batch_length (s : static_map) (ks : List Int) :
    (sm_erase_batch s ks).1.entries.length + (sm_erase_batch s ks).2
      = s.entries.length := by
  induction ks generalizing s with
  | nil => rfl
  | cons k ks ih =>
    show (sm_erase_batch (sm_erase_key s k).1 ks).1.entries.length
        + ((sm_erase_key s k).2 + (sm_erase_batch (sm_erase_key s k).1 ks).2)
      = s.entries.length
    have h1 := ih (sm_erase_key s k).1
    have h2 : ((sm_erase_key s k).1).entries.length + (sm_erase_key s k).2
        = s.entries.length := length_filter_ne_add_countP s.entries k
    omega

theorem sm_erase_batch_entries_sublist (s : static_map) (ks : List Int) :
    (sm_erase_batch s ks).1.entries.Sublist s.entries := by
  induction ks generalizing s with
  | nil => exact List.Sublist.refl _
  | cons k ks ih =>
    show (sm_erase_batch (sm_erase_key s k).1 ks).1.entries.Sublist s.entries
    exact (ih (sm_erase_key s k).1).trans (List.filter_sublist _)

theorem sm_erase_key_of_absent {s : static_map} {k : Int}
    (h : s.sm_contains k = false) : sm_erase_key s k = (s, 0) := by
  rw [sm_contains_eq_false_iff] at h
  have hne : ∀ e ∈ s.entries, ¬ e.1 = k := by
    intro e he hek
    exact h (List.mem_map.mpr ⟨e, he, hek⟩)
  have hc : s.entries.countP (fun e => e.1 = k) = 0 := by
    rw [List.countP_eq_zero]
    intro e he
    simpa using hne e he
  have hf : s.entries.filter (fun e => ¬ e.1 = k) = s.entries := by
    rw [List.filter_eq_self]
    intro e he
    simpa using hne e he
  have hdef : sm_erase_key s k
      = ({ s with
            entries := s.entries.filter (fun e => ¬ e.1 = k)
            tombstones := s.tombstones + s.entries.countP (fun e => e.1 = k) },
         s.entries.countP (fun e => e.1 = k)) := rfl
  rw [hdef, hc, hf]
  rfl

end static_map

end cuco

/-! ## Growth-controller lemmas -/

namespace cuco

namespace dynamic_map

theorem nat_lt_mul_div_succ {a b : Nat} (hb : 0 < b) : a < b * (a / b + 1) := by
  calc a = b * (a / b) + a % b := (Nat.div_add_mod a b).symm
  _ < b * (a / b) + b := Nat.add_lt_add_left (Nat.mod_lt a hb) _
  _ = b * (a / b + 1) := by ring

theorem pool_find_cons (s : static_map) (ss : List static_map) (k : Int) :
    pool_find (s :: ss) k
      = (static_map.find_entry s.entries k).or (pool_find ss k) := by
  cases h : static_map.find_entry s.entries k <;> simp [pool_find, h, Option.or]

theorem pool_find_append (xs ys : List static_map) (k : Int) :
    pool_find (xs ++ ys) k = (pool_find xs k).or (pool_find ys k) := by
  induction xs with
  | nil => simp [pool_find, Option.or]
  | cons s xs ih =>
    rw [List.cons_append, pool_find_cons, ih, pool_find_cons, Option.or_assoc]

theorem pool_find_empties {l : List static_map} (hl : ∀ s ∈ l, s.entries = []) (k : Int) :
    pool_find l k = none := by
  induction l with
  | nil => rfl
  | cons s l ih =>
    rw [pool_find_cons, hl s (List.mem_cons_self s l), ih (fun t ht => hl t (List.mem_cons_of_mem _ ht))]
    rfl

theorem append_submap_fields (m : dynamic_map) (n : Nat) :
    (m.append_submap n).size_ = m.size_ ∧
    (m.append_submap n).mlf_num_ = m.mlf_num_ ∧
    (m.append_submap n).mlf_den_ = m.mlf_den_ ∧
    (m.append_submap n).growth_factor_ = m.growth_factor_ ∧
    (m.append_submap n).min_insert_size_ = m.min_insert_size_ ∧
    (m.append_submap n).empty_key_sentinel_ = m.empty_key_sentinel_ ∧
    (m.append_submap n).empty_value_sentinel_ = m.empty_value_sentinel_ ∧
    (m.append_submap n).erased_key_sentinel_ = m.erased_key_sentinel_ :=
  ⟨rfl, rfl, rfl, rfl, rfl, rfl, rfl, rfl⟩

theorem grow_loop_fields (n : Nat) (fuel : Nat) (m : dynamic_map) :
    (grow_loop n fuel m).size_ = m.size_ ∧
    (grow_loop n fuel m).mlf_num_ = m.mlf_num_ ∧
    (grow_loop n fuel m).mlf_den_ = m.mlf_den_ ∧
    (grow_loop n fuel m).growth_factor_ = m.growth_factor_ ∧
    (grow_loop n fuel m).min_insert_size_ = m.min_insert_size_ ∧
    (grow_loop n fuel m).empty_key_sentinel_ = m.empty_key_sentinel_ ∧
    (grow_loop n fuel m).empty_value_sentinel_ = m.empty_value_sentinel_ ∧
    (grow_loop n fuel m).erased_key_sentinel_ = m.erased_key_sentinel_ := by
  induction fuel generalizing m with
  | zero => exact ⟨rfl, rfl, rfl, rfl, rfl, rfl, rfl, rfl⟩
  | succ fuel ih =>
    by_cases h : grow_cond m n
    · rw [show grow_loop n (fuel + 1) m = grow_loop n fuel (m.append_submap n) from if_pos h]
      exact ih (m.append_submap n)
    · rw [show grow_loop n (fuel + 1) m = m from if_neg h]
      exact ⟨rfl, rfl, rfl, rfl, rfl, rfl, rfl, rfl⟩

theorem grow_loop_submaps (n : Nat) (fuel : Nat) (m : dynamic_map) :
    ∃ l, (grow_loop n fuel m).submaps_ = m.submaps_ ++ l ∧
      ∀ s ∈ l, s.entries = ([] : List (Int × Int)) := by
  induction fuel generalizing m with
  | zero => exact ⟨[], by simp [grow_loop], by simp⟩
  | succ fuel ih =>
    by_cases h : grow_cond m n
    · rw [show grow_loop n (fuel + 1) m = grow_loop n fuel (m.append_submap n) from if_pos h]
      obtain ⟨l, hl, he⟩ := ih (m.append_submap n)
      refine ⟨⟨m.next_submap_capacity n, [], 0⟩ :: l, ?_, ?_⟩
      · rw [hl]
        show (m.submaps_ ++ [_]) ++ l = _
        rw [List.append_assoc]
        rfl
      · intro s hs
        rcases List.mem_cons.mp hs with h | h
        · rw [h]
        · exact he s h
    · rw [show grow_loop n (fuel + 1) m = m from if_neg h]
      exact ⟨[], by simp, by simp⟩

theorem grow_loop_exit (n : Nat) (fuel : Nat) (m : dynamic_map)
    (hnum : 0 < m.mlf_num_) (hgf : 2 ≤ m.growth_factor_)
    (hpos : 0 < n ∨ 0 < m.capacity_ ∨ m.size_ + n = 0)
    (hfuel : (m.size_ + n) * m.mlf_den_ / m.mlf_num_ < fuel + m.capacity_) :
    ¬ occupancy_exceeded (grow_loop n fuel m) n := by
  induction fuel generalizing m with
  | zero =>
    show ¬ occupancy_exceeded m n
    unfold occupancy_exceeded
    intro hlt
    have hFb : (m.size_ + n) * m.mlf_den_
        < m.mlf_num_ * ((m.size_ + n) * m.mlf_den_ / m.mlf_num_ + 1) :=
      nat_lt_mul_div_succ hnum
    have hcb : (m.size_ + n) * m.mlf_den_ / m.mlf_num_ + 1 ≤ m.capacity_ := by omega
    have : m.mlf_num_ * ((m.size_ + n) * m.mlf_den_ / m.mlf_num_ + 1)
        ≤ m.mlf_num_ * m.capacity_ := Nat.mul_le_mul_left _ hcb
    omega
  | succ fuel ih =>
    by_cases h : grow_cond m n
    · rw [show grow_loop n (fuel + 1) m = grow_loop n fuel (m.append_submap n) from if_pos h]
      have ha : 0 < m.next_submap_capacity n := h.2.2
      have hcap : (m.append_submap n).capacity_ = m.capacity_ + m.next_submap_capacity n := rfl
      refine ih (m.append_submap n) hnum hgf ?_ ?_
      · right; left
        rw [hcap]; omega
      · show (m.size_ + n) * m.mlf_den_ / m.mlf_num_ < fuel + (m.append_submap n).capacity_
        rw [hcap]; omega
    · rw [show grow_loop n (fuel + 1) m = m from if_neg h]
      unfold grow_cond at h
      push_neg at h
      intro hocc
      have hle := h hnum hocc
      have ha' : m.next_submap_capacity n = 0 := by omega
      unfold next_submap_capacity at ha'
      have hn0 : n = 0 := by omega
      have hcap0 : m.capacity_ * (m.growth_factor_ - 1) = 0 := by omega
      have hc0 : m.capacity_ = 0 := by
        rcases Nat.mul_eq_zero.mp hcap0 with h1 | h1
        · exact h1
        · omega
      have hs0 : m.size_ = 0 := by
        rcases hpos with h1 | h1 | h1
        · omega
        · omega
        · omega
      unfold occupancy_exceeded at hocc
      rw [hc0, hs0, hn0] at hocc
      omega

end dynamic_map

end cuco

namespace cuco

namespace dynamic_map

theorem newest_append_submap (m : dynamic_map) (n : Nat) :
    (m.append_submap n).newest = ⟨m.next_submap_capacity n, [], 0⟩ := by
  unfold newest append_submap
  simp [List.getLast?_concat]

theorem grow_loop_newest_free (n fuel : Nat) (m : dynamic_map)
    (h : n ≤ m.newest_free) : n ≤ (grow_loop n fuel m).newest_free := by
  induction fuel generalizing m with
  | zero => exact h
  | succ fuel ih =>
    by_cases hc : grow_cond m n
    · rw [show grow_loop n (fuel + 1) m = grow_loop n fuel (m.append_submap n) from if_pos hc]
      refine ih (m.append_submap n) ?_
      unfold newest_free
      rw [newest_append_submap]
      show n ≤ m.next_submap_capacity n - (0 + 0)
      have : n ≤ m.next_submap_capacity n := le_max_right _ _
      omega
    · rw [show grow_loop n (fuel + 1) m = m from if_neg hc]
      exact h

theorem reserve_newest_free (m : dynamic_map) (n : Nat) :
    n ≤ (m.reserve n).newest_free := by
  unfold reserve
  by_cases h : needs_growth m n
  · rw [if_pos h]
    refine grow_loop_newest_free n _ (m.append_submap n) ?_
    unfold newest_free
    rw [newest_append_submap]
    show n ≤ m.next_submap_capacity n - (0 + 0)
    have : n ≤ m.next_submap_capacity n := le_max_right _ _
    omega
  · rw [if_neg h]
    unfold needs_growth at h
    push_neg at h
    exact h.2.2

theorem reserve_not_occupancy (m : dynamic_map) (n : Nat)
    (hnum : 0 < m.mlf_num_) (hgf : 2 ≤ m.growth_factor_)
    (hpos : 0 < n ∨ 0 < m.capacity_ ∨ m.size_ + n = 0) :
    ¬ occupancy_exceeded (m.reserve n) n := by
  unfold reserve
  by_cases h : needs_growth m n
  · rw [if_pos h]
    refine grow_loop_exit n _ (m.append_submap n) hnum hgf ?_ ?_
    · rcases hpos with h1 | h1 | h1
      · exact Or.inl h1
      · right; left
        show 0 < m.capacity_ + m.next_submap_capacity n
        omega
      · right; right; exact h1
    · show (m.size_ + n) * m.mlf_den_ / m.mlf_num_
        < (m.size_ + n) * m.mlf_den_ / m.mlf_num_ + 1 + (m.append_submap n).capacity_
      omega
  · rw [if_neg h]
    unfold needs_growth at h
    push_neg at h
    exact fun hocc => absurd hocc h.1

theorem reserve_fields (m : dynamic_map) (n : Nat) :
    (m.reserve n).size_ = m.size_ ∧
    (m.reserve n).mlf_num_ = m.mlf_num_ ∧
    (m.reserve n).mlf_den_ = m.mlf_den_ ∧
    (m.reserve n).growth_factor_ = m.growth_factor_ ∧
    (m.reserve n).min_insert_size_ = m.min_insert_size_ ∧
    (m.reserve n).empty_key_sentinel_ = m.empty_key_sentinel_ ∧
    (m.reserve n).empty_value_sentinel_ = m.empty_value_sentinel_ ∧
    (m.reserve n).erased_key_sentinel_ = m.erased_key_sentinel_ := by
  unfold reserve
  by_cases h : needs_growth m n
  · rw [if_pos h]
    exact grow_loop_fields n _ (m.append_submap n)
  · rw [if_neg h]
    exact ⟨rfl, rfl, rfl, rfl, rfl, rfl, rfl, rfl⟩

theorem reserve_submaps_ext (m : dynamic_map) (n : Nat) :
    ∃ l, (m.reserve n).submaps_ = m.submaps_ ++ l ∧
      ∀ s ∈ l, s.entries = ([] : List (Int × Int)) := by
  unfold reserve
  by_cases h : needs_growth m n
  · rw [if_pos h]
    obtain ⟨l, hl, he⟩ := grow_loop_submaps n (m.grow_fuel n) (m.append_submap n)
    refine ⟨⟨m.next_submap_capacity n, [], 0⟩ :: l, ?_, ?_⟩
    · rw [hl]
      show (m.submaps_ ++ [_]) ++ l = _
      rw [List.append_assoc]
      rfl
    · intro s hs
      rcases List.mem_cons.mp hs with h1 | h1
      · rw [h1]
      · exact he s h1
  · rw [if_neg h]
    exact ⟨[], by simp, by simp⟩

theorem reserve_pool_find (m : dynamic_map) (n : Nat) (k : Int) :
    pool_find (m.reserve n).submaps_ k = pool_find m.submaps_ k := by
  obtain ⟨l, hl, he⟩ := reserve_submaps_ext m n
  rw [hl, pool_find_append, pool_find_empties he]
  cases pool_find m.submaps_ k <;> rfl

theorem reserve_submaps_ne (m : dynamic_map) (n : Nat)
    (h : m.submaps_ ≠ []) : (m.reserve n).submaps_ ≠ [] := by
  obtain ⟨l, hl, _⟩ := reserve_submaps_ext m n
  rw [hl]
  intro hc
  exact h (List.append_eq_nil.mp hc).1

end dynamic_map

end cuco

/-! ## Bulk-insert orchestration lemmas -/

namespace cuco

namespace dynamic_map

theorem option_or_isSome (a b : Option Int) :
    (a.or b).isSome = (a.isSome || b.isSome) := by
  cases a <;> rfl

theorem option_or_getD (a b : Option Int) (d : Int) (h : a = none) :
    (a.or b).getD d = b.getD d := by
  rw [h]
  rfl

theorem submaps_decomp (m : dynamic_map) (h : m.submaps_ ≠ []) :
    m.submaps_ = m.submaps_.dropLast ++ [m.newest] := by
  unfold newest
  rw [List.getLast?_eq_getLast _ h]
  exact (List.dropLast_concat_getLast h).symm

theorem insert_submaps (m : dynamic_map) (b : List (Int × Int)) :
    (m.insert b).submaps_
      = (m.reserve b.length).submaps_.dropLast
        ++ [((m.reserve b.length).newest.sm_insert_batch b).1] := rfl

theorem insert_size (m : dynamic_map) (b : List (Int × Int)) :
    (m.insert b).size_
      = m.size_ + ((m.reserve b.length).newest.sm_insert_batch b).2 := by
  show (m.reserve b.length).size_ + _ = _
  rw [(reserve_fields m b.length).1]

theorem insert_capacity (m : dynamic_map) (b : List (Int × Int)) :
    (m.insert b).capacity_ = (m.reserve b.length).capacity_ := rfl

theorem insert_fields (m : dynamic_map) (b : List (Int × Int)) :
    (m.insert b).mlf_num_ = m.mlf_num_ ∧
    (m.insert b).mlf_den_ = m.mlf_den_ ∧
    (m.insert b).growth_factor_ = m.growth_factor_ ∧
    (m.insert b).min_insert_size_ = m.min_insert_size_ ∧
    (m.insert b).empty_key_sentinel_ = m.empty_key_sentinel_ ∧
    (m.insert b).empty_value_sentinel_ = m.empty_value_sentinel_ ∧
    (m.insert b).erased_key_sentinel_ = m.erased_key_sentinel_ := by
  obtain ⟨-, h2, h3, h4, h5, h6, h7, h8⟩ := reserve_fields m b.length
  exact ⟨h2, h3, h4, h5, h6, h7, h8⟩

theorem insert_submaps_ne (m : dynamic_map) (b : List (Int × Int)) :
    (m.insert b).submaps_ ≠ [] := by
  rw [insert_submaps]
  intro hc
  exact List.cons_ne_nil _ _ (List.append_eq_nil.mp hc).2

theorem insert_pool_find (m : dynamic_map) (b : List (Int × Int))
    (_hne : m.submaps_ ≠ []) (k : Int) :
    pool_find (m.insert b).submaps_ k
      = (pool_find (m.reserve b.length).submaps_.dropLast k).or
          (static_map.find_entry ((m.reserve b.length).newest.sm_insert_batch b).1.entries k) := by
  rw [insert_submaps, pool_find_append]
  rw [pool_find_cons]
  cases pool_find (m.reserve b.length).submaps_.dropLast k <;>
    cases static_map.find_entry ((m.reserve b.length).newest.sm_insert_batch b).1.entries k <;> rfl

theorem pool_find_decomp (ss : List static_map) (hne : ss ≠ []) (k : Int) :
    pool_find ss k
      = (pool_find ss.dropLast k).or
          (static_map.find_entry (ss.getLast?.getD ⟨0, [], 0⟩).entries k) := by
  conv_lhs => rw [← List.dropLast_concat_getLast hne]
  rw [pool_find_append, pool_find_cons, List.getLast?_eq_getLast _ hne, Option.getD_some]
  cases pool_find ss.dropLast k <;>
    cases static_map.find_entry (ss.getLast hne).entries k <;> rfl

theorem reserve_pool_decomp (m : dynamic_map) (n : Nat) (hne : m.submaps_ ≠ []) (k : Int) :
    pool_find m.submaps_ k
      = (pool_find (m.reserve n).submaps_.dropLast k).or
          (static_map.find_entry (m.reserve n).newest.entries k) := by
  have hne' : (m.reserve n).submaps_ ≠ [] := reserve_submaps_ne m n hne
  rw [← reserve_pool_find m n k]
  exact pool_find_decomp (m.reserve n).submaps_ hne' k

theorem contains_one_insert (m : dynamic_map) (b : List (Int × Int))
    (hne : m.submaps_ ≠ []) (k : Int) :
    ((m.insert b).contains_one k = true) ↔
      (m.contains_one k = true ∨ k ∈ b.map Prod.fst) := by
  have hfree : b.length ≤ (m.reserve b.length).newest.free := reserve_newest_free m b.length
  unfold contains_one
  rw [insert_pool_find m b hne k, option_or_isSome]
  have hsm := static_map.sm_insert_batch_contains (s := (m.reserve b.length).newest) hfree k
  unfold static_map.sm_contains at hsm
  rw [reserve_pool_decomp m b.length hne k, option_or_isSome]
  simp only [Bool.or_eq_true]
  rw [hsm]
  tauto

theorem find_one_insert_fresh (m : dynamic_map) (b : List (Int × Int))
    (hne : m.submaps_ ≠ []) (hnd : (b.map Prod.fst).Nodup)
    (hfresh : ∀ p ∈ b, m.contains_one p.1 = false) {p : Int × Int} (hp : p ∈ b) :
    (m.insert b).find_one p.1 = p.2 := by
  have hfree : b.length ≤ (m.reserve b.length).newest.free := reserve_newest_free m b.length
  have hpf : pool_find m.submaps_ p.1 = none := by
    have := hfresh p hp
    unfold contains_one at this
    exact Option.not_isSome_iff_eq_none.mp (by rw [this]; exact Bool.false_ne_true)
  have hdecomp := reserve_pool_decomp m b.length hne p.1
  rw [hpf] at hdecomp
  have hdrop : pool_find (m.reserve b.length).submaps_.dropLast p.1 = none := by
    cases hd : pool_find (m.reserve b.length).submaps_.dropLast p.1 with
    | none => rfl
    | some v => rw [hd] at hdecomp; exact absurd hdecomp.symm (by simp [Option.or])
  have hnewest : static_map.find_entry (m.reserve b.length).newest.entries p.1 = none := by
    cases hd : static_map.find_entry (m.reserve b.length).newest.entries p.1 with
    | none => rfl
    | some v =>
      rw [hdrop, hd] at hdecomp
      exact absurd hdecomp.symm (by simp [Option.or])
  have hfresh' : ∀ q ∈ b, (m.reserve b.length).newest.sm_contains q.1 = false := by
    intro q hq
    have hpfq : pool_find m.submaps_ q.1 = none := by
      have := hfresh q hq
      unfold contains_one at this
      exact Option.not_isSome_iff_eq_none.mp (by rw [this]; exact Bool.false_ne_true)
    have hdq := reserve_pool_decomp m b.length hne q.1
    rw [hpfq] at hdq
    have : static_map.find_entry (m.reserve b.length).newest.entries q.1 = none := by
      cases hd : static_map.find_entry (m.reserve b.length).newest.entries q.1 with
      | none => rfl
      | some v =>
        cases hd2 : pool_find (m.reserve b.length).submaps_.dropLast q.1 <;>
          · rw [hd, hd2] at hdq
            exact absurd hdq.symm (by simp [Option.or])
      
    unfold static_map.sm_contains
    rw [this]
    rfl
  unfold find_one
  rw [insert_pool_find m b hne p.1, option_or_getD _ _ _ hdrop]
  rw [static_map.sm_insert_batch_find_fresh hfree hnd hfresh' hp]
  rfl

theorem insert_size_fresh (m : dynamic_map) (b : List (Int × Int))
    (hne : m.submaps_ ≠ []) (hnd : (b.map Prod.fst).Nodup)
    (hfresh : ∀ p ∈ b, m.contains_one p.1 = false) :
    (m.insert b).size_ = m.size_ + b.length := by
  have hfree : b.length ≤ (m.reserve b.length).newest.free := reserve_newest_free m b.length
  have hfresh' : ∀ q ∈ b, (m.reserve b.length).newest.sm_contains q.1 = false := by
    intro q hq
    have hpfq : pool_find m.submaps_ q.1 = none := by
      have := hfresh q hq
      unfold contains_one at this
      exact Option.not_isSome_iff_eq_none.mp (by rw [this]; exact Bool.false_ne_true)
    have hdq := reserve_pool_decomp m b.length hne q.1
    rw [hpfq] at hdq
    have : static_map.find_entry (m.reserve b.length).newest.entries q.1 = none := by
      cases hd : static_map.find_entry (m.reserve b.length).newest.entries q.1 with
      | none => rfl
      | some v =>
        cases hd2 : pool_find (m.reserve b.length).submaps_.dropLast q.1 <;>
          · rw [hd, hd2] at hdq
            exact absurd hdq.symm (by simp [Option.or])
    unfold static_map.sm_contains
    rw [this]
    rfl
  rw [insert_size, static_map.sm_insert_batch_snd_fresh hfree hnd hfresh']

theorem insert_size_le (m : dynamic_map) (b : List (Int × Int)) :
    (m.insert b).size_ ≤ m.size_ + b.length := by
  rw [insert_size]
  have := static_map.sm_insert_batch_snd_le (m.reserve b.length).newest b
  omega

end dynamic_map

end cuco

/-! ## Erase-coordinator lemmas -/

namespace cuco

namespace dynamic_map

theorem pool_find_erase (ss : List static_map) (ks : List Int) (k : Int) :
    pool_find (ss.map (fun s => (s.sm_erase_batch ks).1)) k
      = if k ∈ ks then none else pool_find ss k := by
  induction ss with
  | nil => by_cases h : k ∈ ks <;> simp [pool_find, h]
  | cons s ss ih =>
    rw [List.map_cons, pool_find_cons, ih, static_map.sm_erase_batch_find s ks k,
      pool_find_cons]
    by_cases h : k ∈ ks
    · rw [if_pos h, if_pos h, if_pos h]
      rfl
    · rw [if_neg h, if_neg h, if_neg h]

theorem erase_impl_fields (m : dynamic_map) (ks : List Int) :
    (m.erase_impl ks).capacity_ = m.capacity_ ∧
    (m.erase_impl ks).mlf_num_ = m.mlf_num_ ∧
    (m.erase_impl ks).mlf_den_ = m.mlf_den_ ∧
    (m.erase_impl ks).growth_factor_ = m.growth_factor_ ∧
    (m.erase_impl ks).min_insert_size_ = m.min_insert_size_ ∧
    (m.erase_impl ks).empty_key_sentinel_ = m.empty_key_sentinel_ ∧
    (m.erase_impl ks).empty_value_sentinel_ = m.empty_value_sentinel_ ∧
    (m.erase_impl ks).erased_key_sentinel_ = m.erased_key_sentinel_ :=
  ⟨rfl, rfl, rfl, rfl, rfl, rfl, rfl, rfl⟩

theorem erase_impl_submaps (m : dynamic_map) (ks : List Int) :
    (m.erase_impl ks).submaps_
      = m.submaps_.map (fun s => (s.sm_erase_batch ks).1) := by
  show (m.submaps_.map (fun s => s.sm_erase_batch ks)).map Prod.fst = _
  rw [List.map_map]
  rfl

theorem erase_impl_size (m : dynamic_map) (ks : List Int) :
    (m.erase_impl ks).size_
      = m.size_ - ((m.submaps_.map (fun s => s.sm_erase_batch ks)).map Prod.snd).sum := rfl

theorem erase_impl_pool_find (m : dynamic_map) (ks : List Int) (k : Int) :
    pool_find (m.erase_impl ks).submaps_ k
      = if k ∈ ks then none else pool_find m.submaps_ k := by
  rw [erase_impl_submaps]
  exact pool_find_erase m.submaps_ ks k

theorem contains_one_erase_impl (m : dynamic_map) (ks : List Int) (k : Int) :
    ((m.erase_impl ks).contains_one k = true) ↔
      (m.contains_one k = true ∧ k ∉ ks) := by
  unfold contains_one
  rw [erase_impl_pool_find]
  by_cases h : k ∈ ks
  · rw [if_pos h]
    constructor
    · intro hh
      exact absurd hh (by simp)
    · intro hh
      exact absurd h hh.2
  · rw [if_neg h]
    exact ⟨fun hh => ⟨hh, h⟩, fun hh => hh.1⟩

theorem find_one_erase_impl_mem (m : dynamic_map) (ks : List Int) (k : Int)
    (h : k ∈ ks) :
    (m.erase_impl ks).find_one k = m.empty_value_sentinel_ := by
  unfold find_one
  rw [erase_impl_pool_find, if_pos h]
  rfl

theorem contains_one_eq_false_iff (m : dynamic_map) (k : Int) :
    m.contains_one k = false ↔ pool_find m.submaps_ k = none := by
  unfold contains_one
  cases pool_find m.submaps_ k <;> simp

theorem pool_find_none_contains {ss : List static_map} {k : Int}
    (h : pool_find ss k = none) : ∀ s ∈ ss, s.sm_contains k = false := by
  induction ss with
  | nil => intro s hs; cases hs
  | cons t ts ih =>
    rw [pool_find_cons] at h
    intro s hs
    have hft : static_map.find_entry t.entries k = none := by
      cases hfe : static_map.find_entry t.entries k
      · rfl
      · rw [hfe] at h
        exact absurd h (by simp [Option.or])
    have hts : pool_find ts k = none := by
      rw [hft] at h
      exact h
    rcases List.mem_cons.mp hs with h1 | h1
    · subst h1
      unfold static_map.sm_contains
      rw [hft]
      rfl
    · exact ih hts s h1

theorem erase_impl_singleton_noop (m : dynamic_map) (k : Int)
    (h : m.contains_one k = false) : m.erase_impl [k] = m := by
  have habs : ∀ s ∈ m.submaps_, s.sm_contains k = false :=
    pool_find_none_contains ((contains_one_eq_false_iff m k).mp h)
  have hbatch : ∀ s ∈ m.submaps_, s.sm_erase_batch [k] = (s, 0) := by
    intro s hs
    show (let r := s.sm_erase_key k
      let rest := static_map.sm_erase_batch r.1 []
      (rest.1, r.2 + rest.2)) = (s, 0)
    rw [static_map.sm_erase_key_of_absent (habs s hs)]
    rfl
  have hmap : m.submaps_.map (fun s => s.sm_erase_batch [k])
      = m.submaps_.map (fun s => (s, 0)) := by
    apply List.map_congr_left
    intro s hs
    exact hbatch s hs
  show ({ m with
      submaps_ := (m.submaps_.map (fun s => s.sm_erase_batch [k])).map Prod.fst
      size_ := m.size_
        - ((m.submaps_.map (fun s => s.sm_erase_batch [k])).map Prod.snd).sum } : dynamic_map)
    = m
  rw [hmap, List.map_map, List.map_map]
  have h1 : (m.submaps_.map (Prod.fst ∘ fun s => (s, (0 : Nat)))) = m.submaps_ := by
    rw [show (Prod.fst ∘ fun s => (s, (0 : Nat))) = id from rfl, List.map_id]
  have h2 : ((m.submaps_.map (Prod.snd ∘ fun s => (s, (0 : Nat))))).sum = 0 := by
    rw [show (Prod.snd ∘ fun (s : static_map) => (s, (0 : Nat))) = fun _ => (0 : Nat) from rfl]
    simp
  rw [h1, h2]
  rfl

end dynamic_map

end cuco

/-! ## Claim theorems: error handling and auxiliary components -/

namespace cuco

/-- C8: construction of the map with both sentinels supplied fails with a
configuration error exactly when the erased-key sentinel equals the
empty-key sentinel, and succeeds whenever the two sentinels differ. -/
theorem C8_construct_erased_sentinel_check (cap : Nat) (ek ev rk : Int) (mn md mis : Nat) :
    (∃ m, dynamic_map.construct_erased cap ek ev rk mn md mis = Except.ok m) ↔ rk ≠ ek := by
  unfold dynamic_map.construct_erased
  by_cases h : rk = ek
  · rw [if_pos h]
    simp [h]
  · rw [if_neg h]
    simp [h]

/-- C7: `erase` fails with a configuration error if and only if no
erased-key sentinel was configured (the sentinel field is `none`, which is
the case exactly for maps built by the sentinel-free constructor, while
the erase-capable constructor records the supplied sentinel); on failure
the container is returned in its prior state, unchanged. -/
theorem C7_erase_configuration_error (m : dynamic_map) (ks : List Int) :
    ((m.erase ks).2.isSome = true ↔ m.erased_key_sentinel_ = none) ∧
    ((m.erase ks).2.isSome = true → (m.erase ks).1 = m) ∧
    (∀ cap ek ev mn md mis,
      (dynamic_map.construct cap ek ev mn md mis).erased_key_sentinel_ = none) ∧
    (∀ cap ek ev rk mn md mis m0,
      dynamic_map.construct_erased cap ek ev rk mn md mis = Except.ok m0 →
      m0.erased_key_sentinel_ = some rk) := by
  refine ⟨?_, ?_, ?_, ?_⟩
  · cases h : m.erased_key_sentinel_ <;> simp [dynamic_map.erase, h]
  · cases h : m.erased_key_sentinel_ <;> simp [dynamic_map.erase, h]
  · intro cap ek ev mn md mis
    rfl
  · intro cap ek ev rk mn md mis m0 h0
    unfold dynamic_map.construct_erased at h0
    by_cases h : rk = ek
    · rw [if_pos h] at h0
      cases h0
    · rw [if_neg h] at h0
      cases h0
      rfl

/-- Closed witness for C7: on a map constructed without an erased-key
sentinel, `erase` raises the configuration error and hands back the
untouched container. -/
theorem C7_erase_configuration_error_witness :
    ((dynamic_map.construct 1 (-1) (-1) 1 1 0).erase [5]).2.isSome = true ∧
    ((dynamic_map.construct 1 (-1) (-1) 1 1 0).erase [5]).1
      = dynamic_map.construct 1 (-1) (-1) 1 1 0 :=
  ⟨by decide,
    (C7_erase_configuration_error (dynamic_map.construct 1 (-1) (-1) 1 1 0) [5]).2.1
      (by decide)⟩

/-- C10: for every pair size, queue and block size, the device-side
`device_mutable_view::get_shmem_size` obtained from the queue returns the
same byte count as the host-side `priority_queue::get_shmem_size`, namely
`2 * (block_size + 1) * sizeof(int) + 2 * node_size * sizeof(Pair)`. -/
theorem C10_shmem_host_device_agree (sp : Nat) (q : priority_queue) (bs : Nat) :
    (q.get_mutable_device_view).get_shmem_size sp bs = q.get_shmem_size sp bs ∧
    q.get_shmem_size sp bs = 2 * (bs + 1) * sizeof_int + 2 * (q.node_size_ * sp) :=
  ⟨rfl, rfl⟩

namespace utility

theorem shuffle_pick_perm (rng : Nat → Nat) :
    ∀ (fuel step : Nat) (l : List Nat), l.length ≤ fuel →
      (shuffle_pick rng fuel step l).Perm l := by
  intro fuel
  induction fuel with
  | zero =>
    intro step l h
    have hl : l = [] := List.length_eq_zero.mp (Nat.le_zero.mp h)
    subst hl
    exact List.Perm.refl _
  | succ fuel ih =>
    intro step l h
    cases l with
    | nil => exact List.Perm.refl _
    | cons x xs =>
      have hi : rng step % (x :: xs).length < (x :: xs).length :=
        Nat.mod_lt _ (by simp)
      have hlen : (((x :: xs).eraseIdx (rng step % (x :: xs).length))).length ≤ fuel := by
        have := List.length_eraseIdx_add_one hi
        simp only [List.length_cons] at this h ⊢
        omega
      have hrest := ih (step + 1) ((x :: xs).eraseIdx (rng step % (x :: xs).length)) hlen
      have hgetD : (x :: xs).getD (rng step % (x :: xs).length) 0
          = (x :: xs)[rng step % (x :: xs).length] := List.getD_eq_getElem _ _ hi
      show ((x :: xs).getD (rng step % (x :: xs).length) 0
        :: shuffle_pick rng fuel (step + 1)
            ((x :: xs).eraseIdx (rng step % (x :: xs).length))).Perm (x :: xs)
      rw [hgetD]
      have h2 : ((x :: xs).erase ((x :: xs)[rng step % (x :: xs).length])).Perm
          ((x :: xs).eraseIdx (rng step % (x :: xs).length)) := List.erase_getElem hi
      have h3 : (x :: xs).Perm
          ((x :: xs)[rng step % (x :: xs).length]
            :: (x :: xs).erase ((x :: xs)[rng step % (x :: xs).length])) :=
        List.perm_cons_erase (List.getElem_mem hi)
      exact List.Perm.trans (List.Perm.cons _ (hrest.trans h2.symm)) h3.symm

/-- C9: `key_generator::generate` with the `distribution::unique` tag
writes a permutation of the integers `0 .. N-1` over an output range of
length `N`: the output has length `N`, all generated keys are distinct,
and every value in `[0, N)` occurs exactly once, for every random stream
the shuffle may draw. -/
theorem C9_generate_unique_permutation (rng : Nat → Nat) (n : Nat) :
    (generate_unique rng n).Perm (List.range n) ∧
    (generate_unique rng n).Nodup ∧
    (generate_unique rng n).length = n ∧
    (∀ v : Nat, (generate_unique rng n).count v = if v < n then 1 else 0) := by
  have hperm : (generate_unique rng n).Perm (List.range n) :=
    shuffle_pick_perm rng (List.range n).length 0 (List.range n) (Nat.le_refl _)
  refine ⟨hperm, hperm.symm.nodup (List.nodup_range n), ?_, ?_⟩
  · rw [hperm.length_eq, List.length_range]
  · intro v
    rw [hperm.count_eq]
    by_cases hv : v < n
    · rw [if_pos hv]
      exact List.count_eq_one_of_mem (List.nodup_range n) (List.mem_range.mpr hv)
    · rw [if_neg hv]
      exact List.count_eq_zero_of_not_mem (fun hm => hv (List.mem_range.mp hm))

end utility

end cuco

/-! ## Claim theorems: erase/reinsert behavior -/

namespace cuco

/-- C3: `erase({k})` on an absent key leaves the container unchanged (in
particular `size` is unchanged); on a map with an erased-key sentinel
configured, after `erase({k})` on a present key `contains({k})` is false
and `find({k})` yields the empty-value sentinel, and a subsequent
`insert({(k, v)})` succeeds: `find({k})` then returns `v`,
`contains({k})` is true again, and the logical size grows by one (the
tombstone does not block reinsertion). -/
theorem C3_erase_absent_noop_tombstone_reinsert (m : dynamic_map) (k v : Int)
    (hne : m.submaps_ ≠ []) :
    (m.contains_one k = false → (m.erase [k]).1 = m) ∧
    (m.erased_key_sentinel_.isSome = true → m.contains_one k = true →
      ((m.erase [k]).1.contains_one k = false ∧
       (m.erase [k]).1.find_one k = m.empty_value_sentinel_ ∧
       ((m.erase [k]).1.insert [(k, v)]).find_one k = v ∧
       ((m.erase [k]).1.insert [(k, v)]).contains_one k = true ∧
       ((m.erase [k]).1.insert [(k, v)]).size_ = (m.erase [k]).1.size_ + 1)) := by
  constructor
  · intro habs
    cases h : m.erased_key_sentinel_ with
    | none => simp [dynamic_map.erase, h]
    | some rk =>
      show (m.erase [k]).1 = m
      unfold dynamic_map.erase
      rw [h]
      exact dynamic_map.erase_impl_singleton_noop m k habs
  · intro hconf _hpresent
    obtain ⟨rk, hrk⟩ := Option.isSome_iff_exists.mp hconf
    have herase : m.erase [k] = (m.erase_impl [k], none) := by
      unfold dynamic_map.erase
      rw [hrk]
    rw [herase]
    have hcont : (m.erase_impl [k]).contains_one k = false := by
      rw [Bool.eq_false_iff]
      intro hh
      exact ((dynamic_map.contains_one_erase_impl m [k] k).mp hh).2 (List.mem_singleton.mpr rfl)
    have hne1 : (m.erase_impl [k]).submaps_ ≠ [] := by
      rw [dynamic_map.erase_impl_submaps]
      intro hh
      exact hne (List.map_eq_nil_iff.mp hh)
    have hfind : (m.erase_impl [k]).find_one k = m.empty_value_sentinel_ :=
      dynamic_map.find_one_erase_impl_mem m [k] k (List.mem_singleton.mpr rfl)
    have hfresh : ∀ p ∈ [(k, v)], (m.erase_impl [k]).contains_one p.1 = false := by
      intro p hp
      rw [List.mem_singleton.mp hp]
      exact hcont
    have hnd : (([(k, v)]).map Prod.fst).Nodup := by simp
    refine ⟨hcont, hfind, ?_, ?_, ?_⟩
    · exact dynamic_map.find_one_insert_fresh (m.erase_impl [k]) [(k, v)] hne1 hnd hfresh
        (List.mem_singleton.mpr rfl)
    · rw [(dynamic_map.contains_one_insert (m.erase_impl [k]) [(k, v)] hne1 k).mpr
        (Or.inr (by simp))]
    · rw [dynamic_map.insert_size_fresh (m.erase_impl [k]) [(k, v)] hne1 hnd hfresh]
      rfl

/-- Closed witness for C3, following the spec's concrete scenario: an
erase-capable map holding `(3, 30)` erased at `3`, then re-inserted with
`(3, 31)`; all hypotheses are discharged by evaluation. -/
theorem C3_erase_absent_noop_tombstone_reinsert_witness :
    (({ dynamic_map.construct 4 (-1) (-1) 1 2 0 with
        erased_key_sentinel_ := some (-2) } : dynamic_map).insert
          [(3, 30)]).submaps_ ≠ [] ∧
    (({ dynamic_map.construct 4 (-1) (-1) 1 2 0 with
        erased_key_sentinel_ := some (-2) } : dynamic_map).insert
          [(3, 30)]).erased_key_sentinel_.isSome = true ∧
    (({ dynamic_map.construct 4 (-1) (-1) 1 2 0 with
        erased_key_sentinel_ := some (-2) } : dynamic_map).insert
          [(3, 30)]).contains_one 3 = true ∧
    (((({ dynamic_map.construct 4 (-1) (-1) 1 2 0 with
        erased_key_sentinel_ := some (-2) } : dynamic_map).insert
          [(3, 30)]).erase [3]).1.insert [(3, 31)]).find_one 3 = 31 :=
  ⟨by decide, by decide, by decide,
    ((C3_erase_absent_noop_tombstone_reinsert
        (({ dynamic_map.construct 4 (-1) (-1) 1 2 0 with
            erased_key_sentinel_ := some (-2) } : dynamic_map).insert [(3, 30)])
        3 31 (by decide)).2 (by decide) (by decide)).2.2.1⟩

end cuco

/-! ## Claim theorems: growth preserves the occupancy bound -/

namespace cuco

namespace dynamic_map

theorem nat_div_le_div_of_cross {a b c d : Nat} (hd : 0 < d) (h : a * d ≤ c * b) :
    (a : ℚ) / b ≤ (c : ℚ) / d := by
  rcases Nat.eq_zero_or_pos b with hb | hb
  · subst hb
    rw [Nat.mul_zero] at h
    have h0 : a * d = 0 := Nat.le_zero.mp h
    have ha : a = 0 := by
      rcases Nat.mul_eq_zero.mp h0 with h1 | h1
      · exact h1
      · omega
    subst ha
    simp only [Nat.cast_zero, zero_div]
    positivity
  · rw [div_le_div_iff₀ (by exact_mod_cast hb) (by exact_mod_cast hd)]
    exact_mod_cast h

theorem insert_occupancy_step (m : dynamic_map) (b : List (Int × Int))
    (hnum : 0 < m.mlf_num_) (hden : 0 < m.mlf_den_) (hgf : 2 ≤ m.growth_factor_)
    (hpos : 0 < m.capacity_ ∨ m.size_ = 0) :
    (m.insert b).size_ * m.mlf_den_ ≤ m.mlf_num_ * (m.insert b).capacity_ ∧
    (0 < (m.insert b).capacity_ ∨ (m.insert b).size_ = 0) := by
  have hposR : 0 < b.length ∨ 0 < m.capacity_ ∨ m.size_ + b.length = 0 := by
    rcases Nat.eq_zero_or_pos b.length with hn | hn
    · rcases hpos with h | h
      · exact Or.inr (Or.inl h)
      · exact Or.inr (Or.inr (by omega))
    · exact Or.inl hn
  have hocc := reserve_not_occupancy m b.length hnum hgf hposR
  unfold occupancy_exceeded at hocc
  obtain ⟨hs, hn, hd, -, -, -, -, -⟩ := reserve_fields m b.length
  rw [hs, hn, hd, Nat.not_lt] at hocc
  have h2 : (m.insert b).size_ ≤ m.size_ + b.length := insert_size_le m b
  have h3 : (m.insert b).capacity_ = (m.reserve b.length).capacity_ := insert_capacity m b
  have hbound : (m.insert b).size_ * m.mlf_den_ ≤ m.mlf_num_ * (m.insert b).capacity_ := by
    calc (m.insert b).size_ * m.mlf_den_
        ≤ (m.size_ + b.length) * m.mlf_den_ := Nat.mul_le_mul_right _ h2
    _ ≤ m.mlf_num_ * (m.reserve b.length).capacity_ := hocc
    _ = m.mlf_num_ * (m.insert b).capacity_ := by rw [h3]
  refine ⟨hbound, ?_⟩
  by_cases hc : (m.insert b).capacity_ = 0
  · right
    rw [hc, Nat.mul_zero] at hbound
    have h0 : (m.insert b).size_ * m.mlf_den_ = 0 := Nat.le_zero.mp hbound
    rcases Nat.mul_eq_zero.mp h0 with h1 | h1
    · exact h1
    · omega
  · exact Or.inl (Nat.pos_of_ne_zero hc)

theorem foldl_insert_occupancy (mn md : Nat) (hnum : 0 < mn) (hden : 0 < md) :
    ∀ (bs : List (List (Int × Int))) (m : dynamic_map),
      m.mlf_num_ = mn → m.mlf_den_ = md → 2 ≤ m.growth_factor_ →
      (0 < m.capacity_ ∨ m.size_ = 0) → m.size_ * md ≤ mn * m.capacity_ →
      (bs.foldl dynamic_map.insert m).mlf_num_ = mn ∧
      (bs.foldl dynamic_map.insert m).mlf_den_ = md ∧
      2 ≤ (bs.foldl dynamic_map.insert m).growth_factor_ ∧
      (0 < (bs.foldl dynamic_map.insert m).capacity_
        ∨ (bs.foldl dynamic_map.insert m).size_ = 0) ∧
      (bs.foldl dynamic_map.insert m).size_ * md
        ≤ mn * (bs.foldl dynamic_map.insert m).capacity_ := by
  intro bs
  induction bs with
  | nil =>
    intro m h1 h2 h3 h4 h5
    exact ⟨h1, h2, h3, h4, h5⟩
  | cons b bs ih =>
    intro m h1 h2 h3 h4 h5
    obtain ⟨hn', hd', hg', -, -, -, -⟩ := insert_fields m b
    have hstep := insert_occupancy_step m b (h1 ▸ hnum) (h2 ▸ hden) h3 h4
    refine ih (m.insert b) (hn'.trans h1) (hd'.trans h2) (hg' ▸ h3) hstep.2 ?_
    rw [h1, h2] at hstep
    exact hstep.1

/-- C4: for every sequence of insert batches applied to a freshly
constructed map with a positive load-factor threshold `mn / md ≤ 1`,
after every completed insert the invariants hold: `size ≤ capacity` and
`size / capacity ≤ max_load_factor` (growth is performed pre-emptively by
`reserve` before the batch is accepted, which is what maintains the
bound). -/
theorem C4_growth_preserves_occupancy_bound (cap0 : Nat) (ek ev : Int)
    (mn md mis : Nat) (hnum : 0 < mn) (hle : mn ≤ md)
    (bs : List (List (Int × Int))) :
    (bs.foldl dynamic_map.insert (construct cap0 ek ev mn md mis)).get_size
      ≤ (bs.foldl dynamic_map.insert (construct cap0 ek ev mn md mis)).get_capacity ∧
    ((bs.foldl dynamic_map.insert (construct cap0 ek ev mn md mis)).get_size : ℚ)
        / (bs.foldl dynamic_map.insert (construct cap0 ek ev mn md mis)).get_capacity
      ≤ (mn : ℚ) / md := by
  have hden : 0 < md := Nat.lt_of_lt_of_le hnum hle
  have hinit := foldl_insert_occupancy mn md hnum hden bs
    (construct cap0 ek ev mn md mis) rfl rfl (by norm_num [construct])
    (Or.inr rfl) (by simp [construct])
  obtain ⟨-, -, -, -, hbound⟩ := hinit
  constructor
  · have h1 : (bs.foldl dynamic_map.insert (construct cap0 ek ev mn md mis)).size_ * md
        ≤ md * (bs.foldl dynamic_map.insert (construct cap0 ek ev mn md mis)).capacity_ :=
      hbound.trans (Nat.mul_le_mul_right _ hle)
    rw [Nat.mul_comm md _] at h1
    exact Nat.le_of_mul_le_mul_right h1 hden
  · exact nat_div_le_div_of_cross hden hbound

/-- Closed witness for C4, mirroring the spec's concrete scenario:
`initial_capacity = 4`, load factor `1/2`, inserting the batch
`{(0,0), (1,1), (2,2)}` (which triggers growth); the hypotheses
`0 < 1` and `1 ≤ 2` are discharged by evaluation. -/
theorem C4_growth_preserves_occupancy_bound_witness :
    (0 < 1 ∧ 1 ≤ 2) ∧
    (([[(0, 0), (1, 1), (2, 2)]].foldl dynamic_map.insert
        (dynamic_map.construct 4 (-1) (-1) 1 2 0)).get_size
      ≤ ([[(0, 0), (1, 1), (2, 2)]].foldl dynamic_map.insert
        (dynamic_map.construct 4 (-1) (-1) 1 2 0)).get_capacity ∧
    ((([[(0, 0), (1, 1), (2, 2)]].foldl dynamic_map.insert
        (dynamic_map.construct 4 (-1) (-1) 1 2 0)).get_size : ℚ)
        / ([[(0, 0), (1, 1), (2, 2)]].foldl dynamic_map.insert
        (dynamic_map.construct 4 (-1) (-1) 1 2 0)).get_capacity
      ≤ (1 : ℚ) / 2)) :=
  ⟨⟨by decide, by decide⟩,
    C4_growth_preserves_occupancy_bound 4 (-1) (-1) 1 2 0 (by decide) (by decide)
      [[(0, 0), (1, 1), (2, 2)]]⟩

end dynamic_map

end cuco

/-! ## Claim theorems: contains over insert/erase traces -/

namespace cuco

namespace dynamic_map

theorem bool_eq_of_iff {a b : Bool} (h : (a = true) ↔ (b = true)) : a = b := by
  cases a <;> cases b <;> simp_all

theorem contains_one_insert_bool (m : dynamic_map) (b : List (Int × Int))
    (hne : m.submaps_ ≠ []) (k : Int) :
    (m.insert b).contains_one k
      = (m.contains_one k || b.any (fun p => p.1 == k)) := by
  apply bool_eq_of_iff
  rw [contains_one_insert m b hne k]
  simp only [Bool.or_eq_true, List.any_eq_true, beq_iff_eq, List.mem_map]

theorem contains_one_erase_impl_bool (m : dynamic_map) (ks : List Int) (k : Int) :
    (m.erase_impl ks).contains_one k
      = (m.contains_one k && !(ks.any (fun j => j == k))) := by
  apply bool_eq_of_iff
  rw [contains_one_erase_impl m ks k]
  simp only [Bool.and_eq_true, Bool.not_eq_true', List.any_eq_false, beq_iff_eq]
  constructor
  · rintro ⟨h1, h2⟩
    exact ⟨h1, fun j hj hjk => h2 (hjk ▸ hj)⟩
  · rintro ⟨h1, h2⟩
    exact ⟨h1, fun hk => h2 k hk rfl⟩

theorem run_ops_contains_one (k rk : Int) :
    ∀ (ops : List MapOp) (m : dynamic_map),
      m.submaps_ ≠ [] → m.erased_key_sentinel_ = some rk →
      (run_ops m ops).contains_one k
        = ops.foldl (fun live op =>
            match op with
            | .ins b => live || b.any (fun p => p.1 == k)
            | .ers ks => live && !(ks.any (fun j => j == k))) (m.contains_one k) := by
  intro ops
  induction ops with
  | nil =>
    intro m _ _
    rfl
  | cons op ops ih =>
    intro m hne herased
    cases op with
    | ins b =>
      have hne' := insert_submaps_ne m b
      have her' : (m.insert b).erased_key_sentinel_ = some rk := by
        rw [(insert_fields m b).2.2.2.2.2.2]
        exact herased
      show (run_ops (m.insert b) ops).contains_one k = _
      rw [ih (m.insert b) hne' her', contains_one_insert_bool m b hne k,
        List.foldl_cons]
    | ers ks =>
      have herase1 : (m.erase ks).1 = m.erase_impl ks := by
        unfold erase
        rw [herased]
      have hne' : (m.erase_impl ks).submaps_ ≠ [] := by
        rw [erase_impl_submaps]
        intro hh
        exact hne (List.map_eq_nil_iff.mp hh)
      have her' : (m.erase_impl ks).erased_key_sentinel_ = some rk := herased
      show (run_ops (m.erase ks).1 ops).contains_one k = _
      rw [herase1, ih (m.erase_impl ks) hne' her', contains_one_erase_impl_bool m ks k,
        List.foldl_cons]

/-- C2: for every key `k` and every sequence of insert and erase batches
run on a map constructed with an erased-key sentinel, the bulk
`contains({k})` writes `true` exactly when `k` was inserted by some
earlier insert batch and not subsequently erased (`key_live`). -/
theorem C2_contains_reflects_presence (cap : Nat) (ek ev rk : Int)
    (mn md mis : Nat) (m0 : dynamic_map)
    (h0 : construct_erased cap ek ev rk mn md mis = Except.ok m0)
    (ops : List MapOp) (k : Int) :
    (run_ops m0 ops).contains [k] = [key_live k ops] := by
  have hm0 : m0 = { construct cap ek ev mn md mis with
      erased_key_sentinel_ := some rk } := by
    unfold construct_erased at h0
    by_cases h : rk = ek
    · rw [if_pos h] at h0
      cases h0
    · rw [if_neg h] at h0
      cases h0
      rfl
  have hne : m0.submaps_ ≠ [] := by
    rw [hm0]
    exact List.cons_ne_nil _ _
  have herased : m0.erased_key_sentinel_ = some rk := by
    rw [hm0]
  have hcont0 : m0.contains_one k = false := by
    rw [hm0]
    show (pool_find [⟨cap, [], 0⟩] k).isSome = false
    rw [pool_find_cons]
    rfl
  show [(run_ops m0 ops).contains_one k] = [key_live k ops]
  rw [run_ops_contains_one k rk ops m0 hne herased, hcont0]
  rfl

/-- Closed witness for C2: on a concrete erase-capable map, a trace that
inserts key 7, erases it, and re-inserts it; `contains({7})` agrees with
the inserted-and-not-erased predicate. -/
theorem C2_contains_reflects_presence_witness :
    construct_erased 1 (-1) (-1) (-2) 1 1 0
      = Except.ok ({ construct 1 (-1) (-1) 1 1 0 with
          erased_key_sentinel_ := some (-2) } : dynamic_map) ∧
    (run_ops ({ construct 1 (-1) (-1) 1 1 0 with
          erased_key_sentinel_ := some (-2) } : dynamic_map)
        [MapOp.ins [(7, 1)], MapOp.ers [7], MapOp.ins [(7, 2)]]).contains [7]
      = [key_live 7 [MapOp.ins [(7, 1)], MapOp.ers [7], MapOp.ins [(7, 2)]]] :=
  ⟨rfl,
    C2_contains_reflects_presence 1 (-1) (-1) (-2) 1 1 0
      ({ construct 1 (-1) (-1) 1 1 0 with
          erased_key_sentinel_ := some (-2) } : dynamic_map) rfl
      [MapOp.ins [(7, 1)], MapOp.ers [7], MapOp.ins [(7, 2)]] 7⟩

end dynamic_map

end cuco

/-! ## Counterexamples: cross-submap duplicate insertion -/

namespace cuco

namespace dynamic_map

/-- Counterexample to C1 as stated: starting from a freshly constructed
map (capacity 1, load factor 1) into which `insert` already placed
`(7, 1)` (filling the first submap), inserting the batch
`B = [(7, 2)]` — unique keys, non-sentinel value — and then calling
`find` over `keys(B)` returns `[1]`, the stale value from the older
submap, not `values(B) = [2]`: the re-inserted key was accepted into the
newest submap while the older copy still wins the oldest-first probe. -/
theorem C1_find_roundtrip_counterexample :
    (((construct 1 (-1) (-1) 1 1 0).insert [(7, 1)]).insert [(7, 2)]).find [7] = [1] ∧
    ¬ ((((construct 1 (-1) (-1) 1 1 0).insert [(7, 1)]).insert [(7, 2)]).find [7]
        = [(2 : Int)]) := by
  constructor
  · decide
  · decide

/-- Counterexample to C6 as stated: after the insert batches
`{(7, 1)}` then `{(7, 2)}` on a map constructed with capacity 1, the key
7 is simultaneously live in two submaps (the claim says every key lives
in at most one). -/
theorem C6_single_submap_counterexample :
    (run_ops (construct 1 (-1) (-1) 1 1 0)
        [MapOp.ins [(7, 1)], MapOp.ins [(7, 2)]]).copies 7 = 2 := by
  decide

/-- Counterexample to C5 as stated: on the trace
`insert {(7,1)}; insert {(7,2)}; erase {7}` from an erase-capable map of
capacity 1, two keys were inserted and one distinct key was successfully
erased, but `get_size()` is 0, not `2 - 1 = 1`: the duplicated key held
two live copies and the erase removed both. -/
theorem C5_size_accounting_counterexample :
    construct_erased 1 (-1) (-1) (-2) 1 1 0
      = Except.ok ({ construct 1 (-1) (-1) 1 1 0 with
          erased_key_sentinel_ := some (-2) } : dynamic_map) ∧
    (run_ops ({ construct 1 (-1) (-1) 1 1 0 with
          erased_key_sentinel_ := some (-2) } : dynamic_map)
        [MapOp.ins [(7, 1)], MapOp.ins [(7, 2)], MapOp.ers [7]]).get_size = 0 ∧
    inserted_total [MapOp.ins [(7, 1)], MapOp.ins [(7, 2)], MapOp.ers [7]] = 2 ∧
    erased_total ({ construct 1 (-1) (-1) 1 1 0 with
          erased_key_sentinel_ := some (-2) } : dynamic_map)
        [MapOp.ins [(7, 1)], MapOp.ins [(7, 2)], MapOp.ers [7]] = 1 ∧
    ¬ ((run_ops ({ construct 1 (-1) (-1) 1 1 0 with
          erased_key_sentinel_ := some (-2) } : dynamic_map)
        [MapOp.ins [(7, 1)], MapOp.ins [(7, 2)], MapOp.ers [7]]).get_size
      = inserted_total [MapOp.ins [(7, 1)], MapOp.ins [(7, 2)], MapOp.ers [7]]
        - erased_total ({ construct 1 (-1) (-1) 1 1 0 with
            erased_key_sentinel_ := some (-2) } : dynamic_map)
            [MapOp.ins [(7, 1)], MapOp.ins [(7, 2)], MapOp.ers [7]]) := by
  refine ⟨rfl, by decide, by decide, by decide, by decide⟩

end dynamic_map

end cuco

namespace cuco

namespace dynamic_map

/-- C1 (amended): `find` writes the empty-value sentinel at every
position whose key is absent from all submaps; and for every batch `B`
of unique keys none of which is already present in the map — the
documented caller obligation, forced by the cross-submap duplicate
counterexample — `insert(B)` followed by `find` over `keys(B)` returns
exactly `values(B)` in input order. -/
theorem C1_find_roundtrip_amended (m : dynamic_map) (b : List (Int × Int))
    (hne : m.submaps_ ≠ []) (hnd : (b.map Prod.fst).Nodup)
    (hfresh : ∀ p ∈ b, m.contains_one p.1 = false) :
    (∀ k : Int, m.contains_one k = false → m.find_one k = m.empty_value_sentinel_) ∧
    (m.insert b).find (b.map Prod.fst) = b.map Prod.snd := by
  constructor
  · intro k hk
    unfold find_one
    rw [(contains_one_eq_false_iff m k).mp hk]
    rfl
  · unfold find
    rw [List.map_map]
    apply List.map_congr_left
    intro p hp
    exact find_one_insert_fresh m b hne hnd hfresh hp

/-- Closed witness for C1 (amended): inserting the fresh unique batch
`[(0, 10), (1, 11)]` into a freshly constructed map and finding its keys
returns its values in order; all hypotheses are discharged by
evaluation. -/
theorem C1_find_roundtrip_amended_witness :
    ((construct 4 (-1) (-1) 1 2 0).insert [(0, 10), (1, 11)]).find [0, 1]
      = [10, 11] :=
  (C1_find_roundtrip_amended (construct 4 (-1) (-1) 1 2 0) [(0, 10), (1, 11)]
    (by decide) (by decide) (by decide)).2

end dynamic_map

end cuco

/-! ## Key multiset accounting across the pool -/

namespace cuco

namespace dynamic_map

theorem pool_find_isSome_iff (ss : List static_map) (k : Int) :
    ((pool_find ss k).isSome = true) ↔ ∃ s ∈ ss, k ∈ s.entries.map Prod.fst := by
  induction ss with
  | nil => simp [pool_find]
  | cons s ss ih =>
    rw [pool_find_cons, option_or_isSome]
    simp only [Bool.or_eq_true]
    rw [ih, static_map.find_entry_isSome_iff]
    constructor
    · rintro (h | ⟨t, ht, hkt⟩)
      · exact ⟨s, List.mem_cons_self s ss, h⟩
      · exact ⟨t, List.mem_cons_of_mem _ ht, hkt⟩
    · rintro ⟨t, ht, hkt⟩
      rcases List.mem_cons.mp ht with h | h
      · subst h
        exact Or.inl hkt
      · exact Or.inr ⟨t, h, hkt⟩

theorem mem_all_keys (m : dynamic_map) (k : Int) :
    k ∈ m.all_keys ↔ m.contains_one k = true := by
  unfold all_keys contains_one
  rw [pool_find_isSome_iff]
  constructor
  · intro hk
    obtain ⟨l, hl, hkl⟩ := List.mem_flatten.mp hk
    obtain ⟨s, hs, rfl⟩ := List.mem_map.mp hl
    exact ⟨s, hs, hkl⟩
  · rintro ⟨s, hs, hk⟩
    exact List.mem_flatten.mpr ⟨_, List.mem_map_of_mem _ hs, hk⟩

theorem copies_le_count (ss : List static_map) (k : Int) :
    (ss.filter (fun s => s.sm_contains k)).length
      ≤ ((ss.map (fun s => s.entries.map Prod.fst)).flatten).count k := by
  induction ss with
  | nil => simp
  | cons s ss ih =>
    rw [List.map_cons, List.flatten_cons, List.count_append]
    by_cases h : s.sm_contains k = true
    · rw [List.filter_cons_of_pos (by simpa using h), List.length_cons]
      have hmem : k ∈ s.entries.map Prod.fst := static_map.sm_contains_iff.mp h
      have hpos : 0 < (s.entries.map Prod.fst).count k := List.count_pos_iff.mpr hmem
      omega
    · rw [List.filter_cons_of_neg (by simpa using h)]
      omega

theorem copies_le_one (m : dynamic_map) (h : m.all_keys.Nodup) (k : Int) :
    m.copies k ≤ 1 := by
  have h1 := copies_le_count m.submaps_ k
  have h2 : (m.all_keys).count k ≤ 1 := List.nodup_iff_count_le_one.mp h k
  unfold all_keys at h2
  unfold copies
  omega

theorem length_filter_not_mem_add_countP (es : List (Int × Int)) (ks : List Int) :
    (es.filter (fun e => ¬ e.1 ∈ ks)).length + es.countP (fun e => e.1 ∈ ks)
      = es.length := by
  induction es with
  | nil => rfl
  | cons e es ih =>
    by_cases h : e.1 ∈ ks
    · have hfc : (e :: es).filter (fun e => ¬ e.1 ∈ ks)
          = es.filter (fun e => ¬ e.1 ∈ ks) :=
        List.filter_cons_of_neg (by simp [h])
      have hcc : (e :: es).countP (fun e => e.1 ∈ ks)
          = es.countP (fun e => e.1 ∈ ks) + 1 :=
        List.countP_cons_of_pos _ _ (by simp [h])
      rw [hfc, hcc, List.length_cons]
      omega
    · have hfc : (e :: es).filter (fun e => ¬ e.1 ∈ ks)
          = e :: es.filter (fun e => ¬ e.1 ∈ ks) :=
        List.filter_cons_of_pos (by simp [h])
      have hcc : (e :: es).countP (fun e => e.1 ∈ ks)
          = es.countP (fun e => e.1 ∈ ks) :=
        List.countP_cons_of_neg _ _ (by simp [h])
      rw [hfc, hcc, List.length_cons, List.length_cons]
      omega

theorem sm_erase_batch_entries_eq (s : static_map) (ks : List Int) :
    (s.sm_erase_batch ks).1.entries = s.entries.filter (fun e => ¬ e.1 ∈ ks) := by
  induction ks generalizing s with
  | nil =>
    show s.entries = _
    symm
    rw [List.filter_eq_self]
    intro e _
    simp
  | cons k ks ih =>
    show (static_map.sm_erase_batch (s.sm_erase_key k).1 ks).1.entries = _
    rw [ih]
    show ((s.entries.filter (fun e => ¬ e.1 = k)).filter (fun e => ¬ e.1 ∈ ks)) = _
    rw [List.filter_filter]
    apply List.filter_congr
    intro e _
    by_cases h1 : e.1 = k <;> by_cases h2 : e.1 ∈ ks <;>
      simp [h1, h2, List.mem_cons]

theorem sm_erase_batch_snd_eq (s : static_map) (ks : List Int) :
    (s.sm_erase_batch ks).2 = s.entries.countP (fun e => e.1 ∈ ks) := by
  have h1 := static_map.sm_erase_batch_length s ks
  rw [sm_erase_batch_entries_eq] at h1
  have h2 := length_filter_not_mem_add_countP s.entries ks
  omega

theorem erase_removed_sum_list (ks : List Int) (ss : List static_map) :
    ((ss.map (fun s => s.sm_erase_batch ks)).map Prod.snd).sum
      = ((ss.map (fun s => s.entries.map Prod.fst)).flatten).countP (fun j => j ∈ ks) := by
  induction ss with
  | nil => rfl
  | cons s ss ih =>
    rw [List.map_cons, List.map_cons, List.sum_cons, List.map_cons, List.flatten_cons,
      List.countP_append, ih]
    have : (s.sm_erase_batch ks).2 = (s.entries.map Prod.fst).countP (fun j => j ∈ ks) := by
      rw [sm_erase_batch_snd_eq, List.countP_map]
      rfl
    rw [this]

theorem erase_removed_sum (m : dynamic_map) (ks : List Int) :
    ((m.submaps_.map (fun s => s.sm_erase_batch ks)).map Prod.snd).sum
      = m.all_keys.countP (fun j => j ∈ ks) :=
  erase_removed_sum_list ks m.submaps_

theorem erased_count_eq_distinct (m : dynamic_map) (h : m.all_keys.Nodup)
    (ks : List Int) :
    m.all_keys.countP (fun j => j ∈ ks) = distinct_erased m ks := by
  have hfin : ((m.all_keys).filter (fun j => j ∈ ks)).toFinset
      = ks.toFinset.filter (fun k => m.contains_one k = true) := by
    ext a
    simp only [List.mem_toFinset, List.mem_filter, Finset.mem_filter,
      decide_eq_true_eq]
    rw [mem_all_keys]
    tauto
  calc m.all_keys.countP (fun j => j ∈ ks)
      = ((m.all_keys).filter (fun j => j ∈ ks)).length :=
        List.countP_eq_length_filter _ _
  _ = ((m.all_keys).filter (fun j => j ∈ ks)).toFinset.card :=
        (List.toFinset_card_of_nodup (h.filter _)).symm
  _ = (ks.toFinset.filter (fun k => m.contains_one k = true)).card := by rw [hfin]
  _ = distinct_erased m ks := rfl

end dynamic_map

end cuco

namespace cuco

namespace dynamic_map

theorem erase_sum_len_list (ks : List Int) (ss : List static_map) :
    ((ss.map (fun s => (s.sm_erase_batch ks).1)).map (fun s => s.entries.length)).sum
      + ((ss.map (fun s => s.sm_erase_batch ks)).map Prod.snd).sum
      = (ss.map (fun s => s.entries.length)).sum := by
  induction ss with
  | nil => rfl
  | cons s ss ih =>
    simp only [List.map_cons, List.sum_cons]
    have := static_map.sm_erase_batch_length s ks
    omega

theorem erase_impl_sum_len (m : dynamic_map) (ks : List Int) :
    (((m.erase_impl ks).submaps_).map (fun s => s.entries.length)).sum
      + ((m.submaps_.map (fun s => s.sm_erase_batch ks)).map Prod.snd).sum
      = (m.submaps_.map (fun s => s.entries.length)).sum := by
  rw [erase_impl_submaps]
  exact erase_sum_len_list ks m.submaps_

theorem reserve_sum_len (m : dynamic_map) (n : Nat) :
    ((m.reserve n).submaps_.map (fun s => s.entries.length)).sum
      = (m.submaps_.map (fun s => s.entries.length)).sum := by
  obtain ⟨l, hl, he⟩ := reserve_submaps_ext m n
  rw [hl, List.map_append, List.sum_append]
  have : ((l.map (fun s => s.entries.length))).sum = 0 := by
    apply List.sum_eq_zero
    intro x hx
    obtain ⟨s, hs, rfl⟩ := List.mem_map.mp hx
    rw [he s hs]
    rfl
  omega

theorem reserve_all_keys (m : dynamic_map) (n : Nat) :
    (m.reserve n).all_keys = m.all_keys := by
  obtain ⟨l, hl, he⟩ := reserve_submaps_ext m n
  unfold all_keys
  rw [hl, List.map_append, List.flatten_append]
  have : ((l.map (fun s => s.entries.map Prod.fst))).flatten = [] := by
    rw [List.flatten_eq_nil_iff]
    intro x hx
    obtain ⟨s, hs, rfl⟩ := List.mem_map.mp hx
    rw [he s hs]
    rfl
  rw [this, List.append_nil]

theorem pool_sum_len_decomp (ss : List static_map) (hne : ss ≠ []) :
    (ss.map (fun s => s.entries.length)).sum
      = (ss.dropLast.map (fun s => s.entries.length)).sum
        + (ss.getLast?.getD ⟨0, [], 0⟩).entries.length := by
  conv_lhs => rw [← List.dropLast_concat_getLast hne]
  rw [List.map_append, List.sum_append, List.getLast?_eq_getLast _ hne, Option.getD_some]
  simp

theorem pool_all_keys_decomp (ss : List static_map) (hne : ss ≠ []) :
    (ss.map (fun s => s.entries.map Prod.fst)).flatten
      = (ss.dropLast.map (fun s => s.entries.map Prod.fst)).flatten
        ++ (ss.getLast?.getD ⟨0, [], 0⟩).entries.map Prod.fst := by
  conv_lhs => rw [← List.dropLast_concat_getLast hne]
  rw [List.map_append, List.flatten_append, List.getLast?_eq_getLast _ hne, Option.getD_some]
  simp

theorem insert_sum_len (m : dynamic_map) (b : List (Int × Int)) (hne : m.submaps_ ≠ []) :
    ((m.insert b).submaps_.map (fun s => s.entries.length)).sum
      = (m.submaps_.map (fun s => s.entries.length)).sum
        + ((m.reserve b.length).newest.sm_insert_batch b).2 := by
  have hneR : (m.reserve b.length).submaps_ ≠ [] := reserve_submaps_ne m b.length hne
  rw [insert_submaps, List.map_append, List.sum_append]
  have hR : (m.submaps_.map (fun s => s.entries.length)).sum
      = ((m.reserve b.length).submaps_.dropLast.map (fun s => s.entries.length)).sum
        + (m.reserve b.length).newest.entries.length := by
    rw [← reserve_sum_len m b.length, pool_sum_len_decomp _ hneR]
    rfl
  have hlen := static_map.sm_insert_batch_length (m.reserve b.length).newest b
  simp only [List.map_cons, List.map_nil, List.sum_cons, List.sum_nil]
  omega

theorem insert_all_keys (m : dynamic_map) (b : List (Int × Int)) (hne : m.submaps_ ≠ []) :
    ∃ N : List Int,
      (m.insert b).all_keys
        = ((m.reserve b.length).submaps_.dropLast.map
            (fun s => s.entries.map Prod.fst)).flatten
          ++ (N ++ (m.reserve b.length).newest.entries.map Prod.fst) ∧
      m.all_keys
        = ((m.reserve b.length).submaps_.dropLast.map
            (fun s => s.entries.map Prod.fst)).flatten
          ++ (m.reserve b.length).newest.entries.map Prod.fst ∧
      N.Nodup ∧
      (∀ k ∈ N, k ∈ b.map Prod.fst) := by
  have hneR : (m.reserve b.length).submaps_ ≠ [] := reserve_submaps_ne m b.length hne
  obtain ⟨nl, hent, hndnl, hmemnl⟩ :=
    static_map.sm_insert_batch_entries_ext (m.reserve b.length).newest b
  refine ⟨nl.map Prod.fst, ?_, ?_, hndnl, fun k hk => (hmemnl k hk).1⟩
  · unfold all_keys
    rw [insert_submaps, List.map_append, List.flatten_append]
    simp only [List.map_cons, List.map_nil, List.flatten_cons, List.flatten_nil]
    rw [hent, List.map_append, List.append_nil]
  · rw [← reserve_all_keys m b.length]
    unfold all_keys
    exact pool_all_keys_decomp (m.reserve b.length).submaps_ hneR

theorem uniq_insert (m : dynamic_map) (b : List (Int × Int)) (hne : m.submaps_ ≠ [])
    (hU : m.all_keys.Nodup)
    (hfresh : ∀ p ∈ b, m.contains_one p.1 = false) :
    (m.insert b).all_keys.Nodup := by
  obtain ⟨N, hins, hold, hndN, hsubN⟩ := insert_all_keys m b hne
  rw [hold] at hU
  rw [hins]
  rw [List.nodup_append] at hU
  obtain ⟨hA, hB, hAB⟩ := hU
  have hNfresh : ∀ k ∈ N, k ∉ m.all_keys := by
    intro k hk hkm
    obtain ⟨p, hp, hpk⟩ := List.mem_map.mp (hsubN k hk)
    have := hfresh p hp
    rw [hpk] at this
    rw [mem_all_keys] at hkm
    rw [this] at hkm
    cases hkm
  rw [List.nodup_append]
  refine ⟨hA, ?_, ?_⟩
  · rw [List.nodup_append]
    refine ⟨hndN, hB, ?_⟩
    intro k hkN hkB
    exact hNfresh k hkN (by rw [hold]; exact List.mem_append_right _ hkB)
  · intro k hkA hkNB
    rcases List.mem_append.mp hkNB with h | h
    · exact hNfresh k h (by rw [hold]; exact List.mem_append_left _ hkA)
    · exact hAB hkA h

theorem all_keys_erase_sublist_list (ks : List Int) (ss : List static_map) :
    ((ss.map (fun s => (s.sm_erase_batch ks).1)).map
        (fun s => s.entries.map Prod.fst)).flatten.Sublist
      ((ss.map (fun s => s.entries.map Prod.fst)).flatten) := by
  induction ss with
  | nil => exact List.Sublist.refl _
  | cons s ss ih =>
    simp only [List.map_cons, List.flatten_cons]
    exact List.Sublist.append
      (List.Sublist.map Prod.fst (static_map.sm_erase_batch_entries_sublist s ks)) ih

theorem uniq_erase_impl (m : dynamic_map) (ks : List Int)
    (hU : m.all_keys.Nodup) : (m.erase_impl ks).all_keys.Nodup := by
  refine List.Nodup.sublist ?_ hU
  unfold all_keys
  rw [erase_impl_submaps]
  exact all_keys_erase_sublist_list ks m.submaps_

end dynamic_map

end cuco

/-! ## Claim theorems: size accounting and the one-submap invariant -/

namespace cuco

namespace dynamic_map

theorem run_ops_size_accounting (rk : Int) :
    ∀ (ops : List MapOp) (m : dynamic_map),
      m.submaps_ ≠ [] → m.erased_key_sentinel_ = some rk →
      m.all_keys.Nodup →
      m.size_ = (m.submaps_.map (fun s => s.entries.length)).sum →
      disciplined m ops = true →
      ((run_ops m ops).size_ + erased_total m ops
          = m.size_ + inserted_total ops ∧
       (run_ops m ops).all_keys.Nodup) := by
  intro ops
  induction ops with
  | nil =>
    intro m _ _ hU _ _
    exact ⟨rfl, hU⟩
  | cons op ops ih =>
    intro m hne herased hU hsz hdisc
    cases op with
    | ins b =>
      have hd : (decide (b.map Prod.fst).Nodup
          && ((b.map Prod.fst).all fun k => !m.contains_one k)
          && disciplined (m.apply_op (.ins b)) ops) = true := hdisc
      rw [Bool.and_eq_true, Bool.and_eq_true] at hd
      obtain ⟨⟨hd1, hd2⟩, hd3⟩ := hd
      have hnd : (b.map Prod.fst).Nodup := of_decide_eq_true hd1
      have hfresh : ∀ p ∈ b, m.contains_one p.1 = false := by
        intro p hp
        have := List.all_eq_true.mp hd2 p.1 (List.mem_map_of_mem Prod.fst hp)
        simpa using this
      have hne' := insert_submaps_ne m b
      have her' : (m.insert b).erased_key_sentinel_ = some rk := by
        rw [(insert_fields m b).2.2.2.2.2.2]
        exact herased
      have hU' := uniq_insert m b hne hU hfresh
      have hsz' : (m.insert b).size_
          = ((m.insert b).submaps_.map (fun s => s.entries.length)).sum := by
        rw [insert_size, insert_sum_len m b hne, hsz]
      have hrest := ih (m.insert b) hne' her' hU' hsz' hd3
      have hins : (m.insert b).size_ = m.size_ + b.length :=
        insert_size_fresh m b hne hnd hfresh
      refine ⟨?_, hrest.2⟩
      have h1 := hrest.1
      show (run_ops (m.insert b) ops).size_ + erased_total (m.insert b) ops
        = m.size_ + (b.length + inserted_total ops)
      omega
    | ers ks =>
      have happly : m.apply_op (.ers ks) = m.erase_impl ks := by
        show (m.erase ks).1 = _
        unfold erase
        rw [herased]
      have hdisc' : disciplined (m.erase_impl ks) ops = true := by
        rw [← happly]
        exact hdisc
      have hne' : (m.erase_impl ks).submaps_ ≠ [] := by
        rw [erase_impl_submaps]
        intro hh
        exact hne (List.map_eq_nil_iff.mp hh)
      have her' : (m.erase_impl ks).erased_key_sentinel_ = some rk := herased
      have hU' := uniq_erase_impl m ks hU
      have hsum := erase_impl_sum_len m ks
      have hsz' : (m.erase_impl ks).size_
          = ((m.erase_impl ks).submaps_.map (fun s => s.entries.length)).sum := by
        rw [erase_impl_size]
        omega
      have hrest := ih (m.erase_impl ks) hne' her' hU' hsz' hdisc'
      have hrem : ((m.submaps_.map (fun s => s.sm_erase_batch ks)).map Prod.snd).sum
          = distinct_erased m ks := by
        rw [erase_removed_sum]
        exact erased_count_eq_distinct m hU ks
      refine ⟨?_, by
        show (run_ops (m.apply_op (.ers ks)) ops).all_keys.Nodup
        rw [happly]
        exact hrest.2⟩
      have h1 := hrest.1
      have h2 := erase_impl_size m ks
      show (run_ops (m.apply_op (.ers ks)) ops).size_
          + (distinct_erased m ks + erased_total (m.apply_op (.ers ks)) ops)
        = m.size_ + inserted_total ops
      rw [happly]
      omega

/-- C5 (amended): over traces of insert and erase batches that respect
the documented caller discipline — every insert batch has pairwise
distinct keys none of which is already live in the pool — `get_size()`
equals the number of keys inserted minus the number of distinct keys
successfully erased (each erase batch counted against the state it runs
on); equivalently, size plus total distinct erased equals total
inserted.  Without the discipline the cross-submap duplicate
counterexample breaks the equation. -/
theorem C5_size_accounting_amended (cap : Nat) (ek ev rk : Int)
    (mn md mis : Nat) (m0 : dynamic_map)
    (h0 : construct_erased cap ek ev rk mn md mis = Except.ok m0)
    (ops : List MapOp) (hdisc : disciplined m0 ops = true) :
    (run_ops m0 ops).get_size + erased_total m0 ops = inserted_total ops ∧
    (run_ops m0 ops).get_size = inserted_total ops - erased_total m0 ops := by
  have hm0 : m0 = { construct cap ek ev mn md mis with
      erased_key_sentinel_ := some rk } := by
    unfold construct_erased at h0
    by_cases h : rk = ek
    · rw [if_pos h] at h0
      cases h0
    · rw [if_neg h] at h0
      cases h0
      rfl
  have hne : m0.submaps_ ≠ [] := by
    rw [hm0]
    exact List.cons_ne_nil _ _
  have herased : m0.erased_key_sentinel_ = some rk := by rw [hm0]
  have hU : m0.all_keys.Nodup := by
    rw [hm0]
    exact List.nodup_nil
  have hsz : m0.size_ = (m0.submaps_.map (fun s => s.entries.length)).sum := by
    rw [hm0]
    rfl
  have hmain := run_ops_size_accounting rk ops m0 hne herased hU hsz hdisc
  have hs0 : m0.size_ = 0 := by
    rw [hm0]
    rfl
  constructor
  · show (run_ops m0 ops).size_ + erased_total m0 ops = inserted_total ops
    omega
  · show (run_ops m0 ops).size_ = inserted_total ops - erased_total m0 ops
    omega

/-- Closed witness for C5 (amended): the disciplined trace
`insert {(7,1)}; erase {7}; insert {(8,2)}` on a concrete erase-capable
map: two keys inserted, one distinct key erased, final size 1. -/
theorem C5_size_accounting_amended_witness :
    disciplined ({ construct 1 (-1) (-1) 1 1 0 with
        erased_key_sentinel_ := some (-2) } : dynamic_map)
      [MapOp.ins [(7, 1)], MapOp.ers [7], MapOp.ins [(8, 2)]] = true ∧
    (run_ops ({ construct 1 (-1) (-1) 1 1 0 with
        erased_key_sentinel_ := some (-2) } : dynamic_map)
      [MapOp.ins [(7, 1)], MapOp.ers [7], MapOp.ins [(8, 2)]]).get_size
      + erased_total ({ construct 1 (-1) (-1) 1 1 0 with
          erased_key_sentinel_ := some (-2) } : dynamic_map)
        [MapOp.ins [(7, 1)], MapOp.ers [7], MapOp.ins [(8, 2)]]
      = inserted_total [MapOp.ins [(7, 1)], MapOp.ers [7], MapOp.ins [(8, 2)]] :=
  ⟨by decide,
    (C5_size_accounting_amended 1 (-1) (-1) (-2) 1 1 0
      ({ construct 1 (-1) (-1) 1 1 0 with
          erased_key_sentinel_ := some (-2) } : dynamic_map) rfl
      [MapOp.ins [(7, 1)], MapOp.ers [7], MapOp.ins [(8, 2)]] (by decide)).1⟩

/-- C6 (amended): in every state reached by a sequence of insert and
erase batches respecting the documented caller discipline (no insert
batch re-inserts a key already live in the pool, and batch keys are
pairwise distinct), every key is present in at most one submap — so the
order in which submaps are probed cannot affect find/contains results.
Without the discipline, re-insertion yields two live copies
(counterexample). -/
theorem C6_at_most_one_submap_amended (cap : Nat) (ek ev rk : Int)
    (mn md mis : Nat) (m0 : dynamic_map)
    (h0 : construct_erased cap ek ev rk mn md mis = Except.ok m0)
    (ops : List MapOp) (hdisc : disciplined m0 ops = true) (k : Int) :
    (run_ops m0 ops).copies k ≤ 1 := by
  have hm0 : m0 = { construct cap ek ev mn md mis with
      erased_key_sentinel_ := some rk } := by
    unfold construct_erased at h0
    by_cases h : rk = ek
    · rw [if_pos h] at h0
      cases h0
    · rw [if_neg h] at h0
      cases h0
      rfl
  have hne : m0.submaps_ ≠ [] := by
    rw [hm0]
    exact List.cons_ne_nil _ _
  have herased : m0.erased_key_sentinel_ = some rk := by rw [hm0]
  have hU : m0.all_keys.Nodup := by
    rw [hm0]
    exact List.nodup_nil
  have hsz : m0.size_ = (m0.submaps_.map (fun s => s.entries.length)).sum := by
    rw [hm0]
    rfl
  exact copies_le_one _
    (run_ops_size_accounting rk ops m0 hne herased hU hsz hdisc).2 k

/-- Closed witness for C6 (amended): on the disciplined trace
`insert {(7,1)}; erase {7}; insert {(7,2)}` the key 7 occupies at most
one submap in the final state. -/
theorem C6_at_most_one_submap_amended_witness :
    disciplined ({ construct 1 (-1) (-1) 1 1 0 with
        erased_key_sentinel_ := some (-2) } : dynamic_map)
      [MapOp.ins [(7, 1)], MapOp.ers [7], MapOp.ins [(7, 2)]] = true ∧
    (run_ops ({ construct 1 (-1) (-1) 1 1 0 with
        erased_key_sentinel_ := some (-2) } : dynamic_map)
      [MapOp.ins [(7, 1)], MapOp.ers [7], MapOp.ins [(7, 2)]]).copies 7 ≤ 1 :=
  ⟨by decide,
    C6_at_most_one_submap_amended 1 (-1) (-1) (-2) 1 1 0
      ({ construct 1 (-1) (-1) 1 1 0 with
          erased_key_sentinel_ := some (-2) } : dynamic_map) rfl
      [MapOp.ins [(7, 1)], MapOp.ers [7], MapOp.ins [(7, 2)]] (by decide) 7⟩

end dynamic_map

end cuco
